import Mathlib

/-!
Verification of the country-metrics reconciliation pipeline of
`city-geo-warehouse` against its specification.

The development shallowly embeds the core of
`scripts/process_country_metrics.py` (column standardization, wide-to-long
melt, year parsing, the `year >= YEAR_MIN` filter, group-by-key mean
aggregation, per-indicator rescaling and the outer-join fold of
`_merge_metrics`), the validators of `src/utils/validators.py`, and
`CountryDataETL.transform` of `src/models/country_etl.py`.

Tables are lists of rows; floating-point values are modelled as rationals
(every arithmetic fact used — means of small integer sets, `3.5 / 7 * 100` —
is exact in binary floating point as well).  `groupby(..., as_index=False)`
uses pandas' default `sort=True`, so aggregation emits groups sorted by the
key tuple; this ordering is part of the model.
-/

namespace CityGeo

/-- The identity triple `(country_code, country_name, year)` used as group
and join key throughout the pipeline. -/
structure Key where
  code : String
  name : String
  year : Int
deriving DecidableEq, Repr

/-- An annual observation: identity triple plus a metric value
(`value` column of the long form after year extraction). -/
structure Annual where
  code : String
  name : String
  year : Int
  value : ℚ
deriving DecidableEq, Repr

def Annual.key (a : Annual) : Key := ⟨a.code, a.name, a.year⟩

/-- Strict lexicographic comparison of character lists by code point —
the order Python and pandas compare strings by.  A proper prefix sorts
before its extensions. -/
def charLt : List Char → List Char → Bool
  | [], [] => false
  | [], _ :: _ => true
  | _ :: _, [] => false
  | a :: as, b :: bs => if a = b then charLt as bs else decide (a.toNat < b.toNat)

/-- Strict string comparison by code points. -/
def strLt (a b : String) : Bool := charLt a.data b.data

theorem char_toNat_inj {a b : Char} (h : a.toNat = b.toNat) : a = b :=
  Char.eq_of_val_eq (UInt32.toNat.inj h)

theorem charLt_irrefl : ∀ l, charLt l l = false
  | [] => rfl
  | _ :: as => by simp [charLt, charLt_irrefl as]

theorem charLt_trans : ∀ {a b c : List Char},
    charLt a b = true → charLt b c = true → charLt a c = true
  | [], _ :: _, _ :: _, _, _ => rfl
  | x :: xs, y :: ys, z :: zs, h1, h2 => by
    simp only [charLt] at h1 h2 ⊢
    by_cases hxy : x = y
    · subst hxy
      simp only [if_pos rfl] at h1
      by_cases hyz : x = z
      · subst hyz
        simp only [if_pos rfl] at h2 ⊢
        exact charLt_trans h1 h2
      · simp only [if_neg hyz] at h2 ⊢
        exact h2
    · simp only [if_neg hxy] at h1
      by_cases hyz : y = z
      · subst hyz
        simp only [if_neg hxy]
        exact h1
      · simp only [if_neg hyz] at h2
        have hlt : x.toNat < z.toNat :=
          Nat.lt_trans (of_decide_eq_true h1) (of_decide_eq_true h2)
        have hxz : x ≠ z := fun e => absurd (e ▸ hlt) (Nat.lt_irrefl _)
        simp [if_neg hxz, hlt]

theorem charLt_connex : ∀ {a b : List Char},
    charLt a b = false → charLt b a = false → a = b
  | [], [], _, _ => rfl
  | [], _ :: _, h, _ => by simp [charLt] at h
  | _ :: _, [], _, h => by simp [charLt] at h
  | x :: xs, y :: ys, h1, h2 => by
    simp only [charLt] at h1 h2
    by_cases hxy : x = y
    · subst hxy
      simp only [if_pos rfl] at h1 h2
      exact congrArg (x :: ·) (charLt_connex h1 h2)
    · simp only [if_neg hxy, if_neg (Ne.symm hxy), decide_eq_false_iff_not,
        Nat.not_lt] at h1 h2
      exact absurd (char_toNat_inj (Nat.le_antisymm h2 h1)) hxy

/-- Weak comparison of key tuples: the lexicographic
`(country_code, country_name, year)` order pandas sorts group keys by. -/
def keyLeB (a b : Key) : Bool :=
  strLt a.code b.code ||
    (a.code == b.code && (strLt a.name b.name ||
      (a.name == b.name && decide (a.year ≤ b.year))))

def keyLe (a b : Key) : Prop := keyLeB a b = true

instance : DecidableRel keyLe := fun _ _ => instDecidableEqBool _ _

theorem strLt_trans {a b c : String} (h1 : strLt a b = true) (h2 : strLt b c = true) :
    strLt a c = true := charLt_trans h1 h2

theorem strLt_connex {a b : String} (h1 : strLt a b = false) (h2 : strLt b a = false) :
    a = b := by
  cases a; cases b
  exact congrArg String.mk (charLt_connex h1 h2)

theorem strLt_irrefl (a : String) : strLt a a = false := charLt_irrefl a.data

instance : IsTrans Key keyLe where
  trans a b c hab hbc := by
    unfold keyLe keyLeB at *
    simp only [Bool.or_eq_true, Bool.and_eq_true, beq_iff_eq, decide_eq_true_eq]
      at hab hbc ⊢
    rcases hab with h1 | ⟨e1, h1⟩ <;> rcases hbc with h2 | ⟨e2, h2⟩
    · exact Or.inl (strLt_trans h1 h2)
    · exact Or.inl (e2 ▸ h1)
    · exact Or.inl (e1 ▸ h2)
    · refine Or.inr ⟨e1.trans e2, ?_⟩
      rcases h1 with h1 | ⟨f1, h1⟩ <;> rcases h2 with h2 | ⟨f2, h2⟩
      · exact Or.inl (strLt_trans h1 h2)
      · exact Or.inl (f2 ▸ h1)
      · exact Or.inl (f1 ▸ h2)
      · exact Or.inr ⟨f1.trans f2, le_trans h1 h2⟩

instance : IsTotal Key keyLe where
  total a b := by
    unfold keyLe keyLeB
    simp only [Bool.or_eq_true, Bool.and_eq_true, beq_iff_eq, decide_eq_true_eq]
    rcases hc : strLt a.code b.code with hf | ht
    · rcases hc' : strLt b.code a.code with hf' | ht'
      · have e : a.code = b.code := strLt_connex hc hc'
        rcases hn : strLt a.name b.name with _ | _
        · rcases hn' : strLt b.name a.name with _ | _
          · have e' : a.name = b.name := strLt_connex hn hn'
            rcases le_total a.year b.year with h | h
            · exact Or.inl (Or.inr ⟨e, Or.inr ⟨e', h⟩⟩)
            · exact Or.inr (Or.inr ⟨e.symm, Or.inr ⟨e'.symm, h⟩⟩)
          · exact Or.inr (Or.inr ⟨e.symm, Or.inl rfl⟩)
        · exact Or.inl (Or.inr ⟨e, Or.inl rfl⟩)
      · exact Or.inr (Or.inl rfl)
    · exact Or.inl (Or.inl rfl)

theorem keyLe_antisymm {a b : Key} (hab : keyLe a b) (hba : keyLe b a) : a = b := by
  unfold keyLe keyLeB at hab hba
  simp only [Bool.or_eq_true, Bool.and_eq_true, beq_iff_eq, decide_eq_true_eq]
    at hab hba
  rcases hab with h1 | ⟨e1, h1⟩ <;> rcases hba with h2 | ⟨e2, h2⟩
  · exact absurd (strLt_trans h1 h2) (by simp [strLt_irrefl])
  · exact absurd h1 (by simp [e2, strLt_irrefl])
  · exact absurd h2 (by simp [e1, strLt_irrefl])
  · rcases h1 with h1 | ⟨f1, h1⟩ <;> rcases h2 with h2 | ⟨f2, h2⟩
    · exact absurd (strLt_trans h1 h2) (by simp [strLt_irrefl])
    · exact absurd h1 (by simp [f2, strLt_irrefl])
    · exact absurd h2 (by simp [f1, strLt_irrefl])
    · cases a; cases b
      simp_all
      exact le_antisymm h1 h2

/-- `YEAR_MIN` of `process_country_metrics.py`. -/
def YEAR_MIN : Int := 2015

/-- The numeric value of the digits of a period label's 4-character prefix. -/
def digitsVal (cs : List Char) : Nat := cs.foldl (fun n c => n * 10 + (c.toNat - 48)) 0

/-- `stacked['year_raw'].str.slice(0, 4).astype(int)`: the leading four
characters of a period label parsed as an integer (every period column is
selected by a `\d{4}`-prefixed pattern, so the prefix is all digits). -/
def yearOf (s : String) : Int := (digitsVal (s.data.take 4) : Int)

/-- One row of a standardized wide table: identifier pair plus the cells of
the period columns, aligned with the period-column name list. -/
structure WideRow where
  code : String
  name : String
  cells : List (Option ℚ)
deriving DecidableEq, Repr

/-- One long-form observation after `melt(...).dropna(subset=[value_name])`:
`period` is the originating column name, `value` is non-null. -/
structure LongObs where
  code : String
  name : String
  period : String
  value : ℚ
deriving DecidableEq, Repr

/-- `df.melt(id_vars=[code, name], value_vars=cols).dropna(...)`: pandas
stacks column-major (all rows of the first value column, then the next);
null cells are dropped. -/
def melt (rows : List WideRow) (cols : List String) : List LongObs :=
  (cols.enum.map (fun ic =>
    rows.filterMap (fun r =>
      ((r.cells.get? ic.1).getD none).map
        (fun v => ⟨r.code, r.name, ic.2, v⟩)))).flatten

/-- Year extraction plus the `year >= YEAR_MIN` filter applied to the melted
long form (lines 26–27 / 51–52 of `process_country_metrics.py`). -/
def annualize (rows : List WideRow) (cols : List String) : List Annual :=
  ((melt rows cols).map
      (fun o => ({ code := o.code, name := o.name, year := yearOf o.period,
                   value := o.value } : Annual))).filter
    (fun a => decide (YEAR_MIN ≤ a.year))

/-- The distinct group keys of a list of observations, in the sorted order
pandas `groupby` (default `sort=True`) emits them. -/
def keysOf (l : List Annual) : List Key :=
  List.insertionSort keyLe (l.map Annual.key).dedup

/-- The values contributing to the group of key `k`. -/
def groupValues (l : List Annual) (k : Key) : List ℚ :=
  (l.filter (fun a => decide (a.key = k))).map Annual.value

/-- `groupby([code, name, year], as_index=False)[value].mean()`: one row per
distinct key, in sorted key order, carrying the unweighted arithmetic mean of
the group's values. -/
def aggregateAnnual (l : List Annual) : List Annual :=
  (keysOf l).map (fun k =>
    ⟨k.code, k.name, k.year, (groupValues l k).sum / (groupValues l k).length⟩)

/-- `_stack_years`: melt, parse years, filter to the reference window, return
early when empty, else aggregate to one row per key. -/
def stack_years (rows : List WideRow) (cols : List String) : List Annual :=
  let filtered := annualize rows cols
  if filtered.isEmpty then [] else aggregateAnnual filtered

/-- The monthly CPI path of `_prepare_cpi` (lines 47–54): identical pipeline
but without the early-empty return (groupby of an empty frame is empty). -/
def prepare_cpi_core (rows : List WideRow) (cols : List String) : List Annual :=
  aggregateAnnual (annualize rows cols)

/-- The `raw / 7 * 100` post-transform of `_prepare_higher_education` and
`_prepare_cultural_resources` (adding the rescaled column and dropping the
raw one amounts to rescaling the single value column). -/
def rescale_0_7_to_0_100 (l : List Annual) : List Annual :=
  l.map (fun a => { a with value := a.value / 7 * 100 })

/-- `_prepare_higher_education` / `_prepare_cultural_resources` after
standardization: stack the annual columns, then rescale. -/
def prepare_rescaled_core (rows : List WideRow) (cols : List String) : List Annual :=
  rescale_0_7_to_0_100 (stack_years rows cols)

/-- The value an annual table carries for a given identity triple. -/
def lookupValue (l : List Annual) (k : Key) : Option ℚ :=
  (l.find? (fun a => decide (a.key = k))).map Annual.value

/-! ### Structure of the aggregation -/

theorem mem_keysOf {l : List Annual} {k : Key} :
    k ∈ keysOf l ↔ ∃ a ∈ l, a.key = k := by
  unfold keysOf
  rw [(List.perm_insertionSort keyLe _).mem_iff, List.mem_dedup, List.mem_map]

theorem nodup_keysOf (l : List Annual) : (keysOf l).Nodup :=
  (List.perm_insertionSort keyLe _).nodup_iff.mpr (List.nodup_dedup _)

theorem aggregateAnnual_map_key (l : List Annual) :
    (aggregateAnnual l).map Annual.key = keysOf l := by
  unfold aggregateAnnual
  rw [List.map_map]
  show (keysOf l).map (fun k => k) = keysOf l
  exact List.map_id' _

theorem mem_aggregateAnnual {l : List Annual} {a : Annual} (h : a ∈ aggregateAnnual l) :
    ∃ b ∈ l, b.key = a.key := by
  have : a.key ∈ (aggregateAnnual l).map Annual.key := List.mem_map_of_mem _ h
  rw [aggregateAnnual_map_key, mem_keysOf] at this
  exact this

/-- A list whose image under `f` has no duplicates: filtering for the class
of one of its members returns exactly that member. -/
theorem filter_eq_singleton_of_nodup_map {α β : Type} [DecidableEq β] (f : α → β)
    {l : List α} (h : (l.map f).Nodup) {a : α} (ha : a ∈ l) :
    l.filter (fun b => decide (f b = f a)) = [a] := by
  induction l with
  | nil => cases ha
  | cons x xs ih =>
    rw [List.map_cons, List.nodup_cons] at h
    rcases List.mem_cons.mp ha with rfl | hxs
    · have hnil : xs.filter (fun b => decide (f b = f a)) = [] := by
        rw [List.filter_eq_nil_iff]
        intro b hb
        simp only [decide_eq_true_eq]
        exact fun e => h.1 (e ▸ List.mem_map_of_mem f hb)
      simp [List.filter_cons, hnil]
    · have hne : f x ≠ f a := fun e => h.1 (e ▸ List.mem_map_of_mem f hxs)
      simp [List.filter_cons, hne, ih h.2 hxs]

/-! ### C2 — the Temporal Aggregator takes the unweighted mean per key -/

/-- C2: whenever some observation carries the key `k`, the Temporal
Aggregator's output contains exactly one row for `k`, and its value is the
unweighted arithmetic mean of the contributing observations. -/
theorem aggregateAnnual_single_row_mean (l : List Annual) (k : Key)
    (h : ∃ a ∈ l, a.key = k) :
    (aggregateAnnual l).filter (fun a => decide (a.key = k)) =
      [⟨k.code, k.name, k.year,
        (groupValues l k).sum / (groupValues l k).length⟩] := by
  have hk : k ∈ keysOf l := mem_keysOf.mpr h
  have hmem : (⟨k.code, k.name, k.year,
      (groupValues l k).sum / (groupValues l k).length⟩ : Annual) ∈ aggregateAnnual l := by
    unfold aggregateAnnual
    exact List.mem_map_of_mem _ hk
  have hnd : ((aggregateAnnual l).map Annual.key).Nodup := by
    rw [aggregateAnnual_map_key]; exact nodup_keysOf l
  have hrk : Annual.key ⟨k.code, k.name, k.year,
      (groupValues l k).sum / (groupValues l k).length⟩ = k := rfl
  rw [← hrk]
  exact filter_eq_singleton_of_nodup_map Annual.key hnd hmem

/-- The monthly example of the spec: `Jan2018=10, Feb2018=20` for one
country, melted from a monthly wide table. -/
def monthlyExample : List Annual :=
  annualize [⟨"DEU", "Germany", [some 10, some 20]⟩] ["2018-01", "2018-02"]

/-- C2 witness: the monthly example aggregates to the single row
`(DEU, Germany, 2018, 15)`. -/
theorem aggregateAnnual_single_row_mean_witness :
    (aggregateAnnual monthlyExample).filter
        (fun a => decide (a.key = ⟨"DEU", "Germany", 2018⟩)) =
      [⟨"DEU", "Germany", 2018, 15⟩] := by
  have h := aggregateAnnual_single_row_mean monthlyExample ⟨"DEU", "Germany", 2018⟩
    ⟨⟨"DEU", "Germany", 2018, 10⟩, by decide, rfl⟩
  have hg : groupValues monthlyExample ⟨"DEU", "Germany", 2018⟩ = [10, 20] := by decide
  rw [hg] at h
  rw [h]
  norm_num

/-! ### C3 — every pipeline output row has `year ≥ YEAR_MIN` -/

theorem year_min_of_mem_annualize {rows : List WideRow} {cols : List String}
    {a : Annual} (ha : a ∈ annualize rows cols) : YEAR_MIN ≤ a.year := by
  unfold annualize at ha
  simpa using List.of_mem_filter ha

theorem year_min_of_mem_aggregate {l : List Annual} {a : Annual}
    (hl : ∀ b ∈ l, YEAR_MIN ≤ b.year) (ha : a ∈ aggregateAnnual l) :
    YEAR_MIN ≤ a.year := by
  obtain ⟨b, hb, hk⟩ := mem_aggregateAnnual ha
  have : b.year = a.year := congrArg Key.year hk
  exact this ▸ hl b hb

/-- C3: every row produced by any of the indicator pipelines — the
`_stack_years` path, the monthly/quarterly path of `_prepare_cpi` /
`_prepare_house_price_income`, and the rescaled pipelines of
`_prepare_higher_education` / `_prepare_cultural_resources` — has
`year ≥ YEAR_MIN`, whatever period columns the source contains. -/
theorem claim_year_min_filter :
    (∀ rows cols a, a ∈ stack_years rows cols → YEAR_MIN ≤ a.year) ∧
    (∀ rows cols a, a ∈ prepare_cpi_core rows cols → YEAR_MIN ≤ a.year) ∧
    (∀ rows cols a, a ∈ prepare_rescaled_core rows cols → YEAR_MIN ≤ a.year) := by
  have hstack : ∀ rows cols a, a ∈ stack_years rows cols → YEAR_MIN ≤ a.year := by
    intro rows cols a ha
    unfold stack_years at ha
    by_cases he : (annualize rows cols).isEmpty
    · rw [if_pos he] at ha; cases ha
    · rw [if_neg he] at ha
      exact year_min_of_mem_aggregate (fun b hb => year_min_of_mem_annualize hb) ha
  refine ⟨hstack, ?_, ?_⟩
  · intro rows cols a ha
    exact year_min_of_mem_aggregate (fun b hb => year_min_of_mem_annualize hb) ha
  · intro rows cols a ha
    unfold prepare_rescaled_core rescale_0_7_to_0_100 at ha
    obtain ⟨b, hb, rfl⟩ := List.mem_map.mp ha
    exact hstack rows cols b hb

/-! ### C6 — idempotence of the aggregator -/

/-- An already-annual table that is **not** sorted by its key triple. -/
def annualPairExample : List Annual := [⟨"B", "B", 2016, 1⟩, ⟨"A", "A", 2015, 2⟩]

/-- C6 counterexample: this table is already annual (one observation per
key, all years `≥ YEAR_MIN`), yet re-aggregation does *not* return it
unchanged — pandas `groupby` re-sorts the rows by the group key. -/
theorem aggregate_not_idempotent_unsorted :
    ((annualPairExample.map Annual.key).Nodup ∧
      ∀ a ∈ annualPairExample, YEAR_MIN ≤ a.year) ∧
    aggregateAnnual annualPairExample ≠ annualPairExample := by
  refine ⟨by decide, fun h => ?_⟩
  have hk := congrArg (List.map Annual.key) h
  rw [aggregateAnnual_map_key] at hk
  exact absurd hk (by decide)

/-- C6 amended: on a table already annual **and sorted by its key triple**
(in particular on any output of the aggregator itself), re-aggregation by
`(country_code, country_name, year)` mean returns the table unchanged. -/
theorem aggregateAnnual_idempotent_sorted (l : List Annual)
    (hnd : (l.map Annual.key).Nodup)
    (hsorted : List.Sorted keyLe (l.map Annual.key))
    (_hyears : ∀ a ∈ l, YEAR_MIN ≤ a.year) :
    aggregateAnnual l = l := by
  have hkeys : keysOf l = l.map Annual.key := by
    unfold keysOf
    rw [List.dedup_eq_self.mpr hnd]
    exact hsorted.insertionSort_eq
  unfold aggregateAnnual
  rw [hkeys, List.map_map]
  have hpt : ∀ a ∈ l,
      ((fun k : Key => (⟨k.code, k.name, k.year,
          (groupValues l k).sum / (groupValues l k).length⟩ : Annual)) ∘ Annual.key) a
        = a := by
    intro a ha
    have hgv : groupValues l a.key = [a.value] := by
      unfold groupValues
      rw [filter_eq_singleton_of_nodup_map Annual.key hnd ha]
      rfl
    cases a
    simp only [Annual.key] at hgv
    simp only [Function.comp, Annual.key, Annual.mk.injEq, true_and]
    rw [hgv]
    simp
  rw [List.map_congr_left hpt]
  exact List.map_id' l

/-- A sorted already-annual table, for the amended C6 at a concrete input. -/
def annualSortedExample : List Annual := [⟨"A", "A", 2015, 2⟩, ⟨"B", "B", 2016, 1⟩]

/-- C6 amended witness: the sorted two-row annual table is a fixed point of
the aggregator. -/
theorem aggregateAnnual_idempotent_sorted_witness :
    aggregateAnnual annualSortedExample = annualSortedExample :=
  aggregateAnnual_idempotent_sorted annualSortedExample
    (by decide) (by decide) (by decide)

/-! ### C8 — the `raw/7*100` rescale -/

theorem find?_rescale (l : List Annual) (k : Key) :
    (rescale_0_7_to_0_100 l).find? (fun a => decide (a.key = k)) =
      (l.find? (fun a => decide (a.key = k))).map
        (fun a => { a with value := a.value / 7 * 100 }) := by
  induction l with
  | nil => rfl
  | cons x xs ih =>
    by_cases hx : x.key = k
    · have hx' : ({ x with value := x.value / 7 * 100 } : Annual).key = k := hx
      simp [rescale_0_7_to_0_100, List.find?_cons, hx, hx']
    · have hx' : ¬ ({ x with value := x.value / 7 * 100 } : Annual).key = k := hx
      simpa [rescale_0_7_to_0_100, List.find?_cons, hx, hx'] using ih

/-- C8: for the rescaled pipelines the output value for any key equals the
aggregated raw value divided by 7 and multiplied by 100; concretely, a raw
(aggregated) value of `3.5` is rescaled to exactly `50`. -/
theorem claim_rescale_7_100 :
    (∀ rows cols k, lookupValue (prepare_rescaled_core rows cols) k =
      (lookupValue (stack_years rows cols) k).map (fun v => v / 7 * 100)) ∧
    rescale_0_7_to_0_100 [⟨"AUT", "Austria", 2018, 7 / 2⟩] =
      [⟨"AUT", "Austria", 2018, 50⟩] := by
  constructor
  · intro rows cols k
    unfold prepare_rescaled_core lookupValue
    rw [find?_rescale]
    cases (stack_years rows cols).find? (fun a => decide (a.key = k)) <;> rfl
  · simp only [rescale_0_7_to_0_100, List.map_cons, List.map_nil,
      List.cons.injEq, Annual.mk.injEq, true_and, and_true]
    norm_num

/-! ### The Multi-Indicator Merger (`_merge_metrics`) -/

/-- One per-indicator annual table handed to `_merge_metrics`: the
indicator's column name, and one value per identity triple. -/
structure ITable where
  col : String
  rows : List (Key × ℚ)
deriving DecidableEq, Repr

/-- A merged wide table: per row an identity triple plus one nullable cell
per indicator column, cells aligned with `cols`. -/
structure MTable where
  cols : List String
  rows : List (Key × List (Option ℚ))
deriving DecidableEq, Repr

def ITable.lookup (t : ITable) (k : Key) : Option ℚ :=
  (t.rows.find? (fun r => decide (r.1 = k))).map Prod.snd

def ITable.hasKey (t : ITable) (k : Key) : Bool :=
  t.rows.any (fun r => decide (r.1 = k))

def MTable.hasKey (M : MTable) (k : Key) : Bool :=
  M.rows.any (fun r => decide (r.1 = k))

/-- `left.merge(right, on=[CODE_COL, NAME_COL, 'year'], how='outer')` for a
left table with unique keys and a right per-indicator table: every left row
extended with the right value (null when the right has none), followed by
the right-only keys with nulls in every left column. -/
def joinOuter (M : MTable) (t : ITable) : MTable :=
  { cols := M.cols ++ [t.col]
    rows := M.rows.map (fun r => (r.1, r.2 ++ [t.lookup r.1])) ++
      (t.rows.filter (fun r => !(M.hasKey r.1))).map
        (fun r => (r.1, List.replicate M.cols.length none ++ [some r.2])) }

/-- The first indicator table viewed as a one-column merged table
(the initial accumulator of `functools.reduce`). -/
def toM (t : ITable) : MTable :=
  ⟨[t.col], t.rows.map (fun r => (r.1, [some r.2]))⟩

/-- Row order of the final `sort_values([CODE_COL, 'year'])`: weak order by
`(country_code, year)` only. -/
def rowLe (a b : Key × List (Option ℚ)) : Prop :=
  (strLt a.1.code b.1.code ||
    (a.1.code == b.1.code && decide (a.1.year ≤ b.1.year))) = true

instance : DecidableRel rowLe := fun _ _ => instDecidableEqBool _ _

/-- `_merge_metrics`: left-fold of full outer joins over the per-indicator
tables, then a stable sort by `(country_code, year)`.  (`reduce` on an empty
list raises in the source; the claims assume a non-empty input.) -/
def mergeMetrics (ts : List ITable) : MTable :=
  match ts with
  | [] => ⟨[], []⟩
  | t :: rest =>
    let M := rest.foldl joinOuter (toM t)
    ⟨M.cols, List.insertionSort rowLe M.rows⟩

/-- Position of a column label in a header list (first occurrence). -/
def colIndex : List String → String → Option Nat
  | [], _ => none
  | c :: cs, d => if c = d then some 0 else (colIndex cs d).map (· + 1)

def findRow (rows : List (Key × List (Option ℚ))) (k : Key) :
    Option (Key × List (Option ℚ)) :=
  rows.find? (fun r => decide (r.1 = k))

/-- The cell of a merged table at column `c` and key `k`: `none` when the
column or the key is absent, `some none` for a present-but-null cell. -/
def getCell (M : MTable) (c : String) (k : Key) : Option (Option ℚ) :=
  (colIndex M.cols c).bind (fun i => (findRow M.rows k).bind (fun r => r.2[i]?))

def ITable.keys (t : ITable) : List Key := t.rows.map Prod.fst

/-- The union of the identity triples of a list of indicator tables. -/
def unionKeys (ts : List ITable) : Finset Key :=
  ts.foldr (fun t s => t.keys.toFinset ∪ s) ∅

/-! #### Basic lookup lemmas -/

theorem MTable.hasKey_iff_mem_rows {M : MTable} {k : Key} :
    M.hasKey k = true ↔ k ∈ M.rows.map Prod.fst := by
  simp [MTable.hasKey, List.any_eq_true, List.mem_map]

theorem ITable.hasKey_iff_mem_keys {t : ITable} {k : Key} :
    t.hasKey k = true ↔ k ∈ t.keys := by
  simp [ITable.hasKey, ITable.keys, List.any_eq_true, List.mem_map]

theorem ITable.lookup_eq_none {t : ITable} {k : Key} (h : t.hasKey k = false) :
    t.lookup k = none := by
  unfold ITable.lookup
  rw [List.find?_eq_none.mpr]
  · rfl
  · intro r hr hpr
    have : t.hasKey k = true := by
      unfold ITable.hasKey
      rw [List.any_eq_true]
      exact ⟨r, hr, hpr⟩
    rw [this] at h; cases h

theorem mem_unionKeys {ts : List ITable} {k : Key} :
    k ∈ unionKeys ts ↔ ∃ t ∈ ts, t.hasKey k = true := by
  induction ts with
  | nil => simp [unionKeys]
  | cons t rest ih =>
    simp only [unionKeys, List.foldr_cons, Finset.mem_union, List.mem_toFinset,
      List.mem_cons] at *
    constructor
    · rintro (h | h)
      · exact ⟨t, Or.inl rfl, ITable.hasKey_iff_mem_keys.mpr h⟩
      · obtain ⟨u, hu, hk⟩ := ih.mp h
        exact ⟨u, Or.inr hu, hk⟩
    · rintro ⟨u, hu | hu, hk⟩
      · exact Or.inl (ITable.hasKey_iff_mem_keys.mp (hu ▸ hk))
      · exact Or.inr (ih.mpr ⟨u, hu, hk⟩)

theorem colIndex_eq_none {cols : List String} {c : String} :
    colIndex cols c = none ↔ c ∉ cols := by
  induction cols with
  | nil => simp [colIndex]
  | cons x xs ih =>
    by_cases hx : x = c
    · simp [colIndex, hx]
    · simp [colIndex, hx, ih, Ne.symm hx]

theorem colIndex_lt_length {cols : List String} {c : String} {i : Nat}
    (h : colIndex cols c = some i) : i < cols.length := by
  induction cols generalizing i with
  | nil => cases h
  | cons x xs ih =>
    unfold colIndex at h
    by_cases hx : x = c
    · rw [if_pos hx] at h
      cases h
      simp
    · rw [if_neg hx] at h
      obtain ⟨j, hj, rfl⟩ := Option.map_eq_some'.mp h
      simpa using Nat.succ_lt_succ (ih hj)

theorem colIndex_append_left {xs : List String} {c : String} {i : Nat}
    (ys : List String) (h : colIndex xs c = some i) :
    colIndex (xs ++ ys) c = some i := by
  induction xs generalizing i with
  | nil => cases h
  | cons x xt ih =>
    simp only [colIndex, List.cons_append, List.append_eq] at h ⊢
    by_cases hx : x = c
    · rw [if_pos hx] at h ⊢; exact h
    · rw [if_neg hx] at h ⊢
      obtain ⟨j, hj, rfl⟩ := Option.map_eq_some'.mp h
      rw [ih hj]; rfl

theorem colIndex_append_right {xs : List String} {c : String}
    (ys : List String) (h : colIndex xs c = none) :
    colIndex (xs ++ ys) c = (colIndex ys c).map (· + xs.length) := by
  induction xs with
  | nil => simp [colIndex]
  | cons x xt ih =>
    simp only [colIndex, List.cons_append, List.append_eq] at h ⊢
    by_cases hx : x = c
    · rw [if_pos hx] at h; cases h
    · rw [if_neg hx] at h ⊢
      rw [ih (by simpa using h)]
      cases colIndex ys c <;> simp [List.length_cons]
      omega

theorem findRow_eq_some {rows : List (Key × List (Option ℚ))} {k : Key}
    {r : Key × List (Option ℚ)} (h : findRow rows k = some r) :
    r.1 = k ∧ r ∈ rows := by
  have h1 := List.find?_some h
  have h2 := List.mem_of_find?_eq_some h
  exact ⟨of_decide_eq_true h1, h2⟩

theorem findRow_eq_none {rows : List (Key × List (Option ℚ))} {k : Key} :
    findRow rows k = none ↔ ∀ r ∈ rows, r.1 ≠ k := by
  unfold findRow
  rw [List.find?_eq_none]
  simp

theorem findRow_append_some {r1 r2 : List (Key × List (Option ℚ))} {k : Key}
    {r : Key × List (Option ℚ)} (h : findRow r1 k = some r) :
    findRow (r1 ++ r2) k = some r := by
  induction r1 with
  | nil => cases h
  | cons x xt ih =>
    cases hx : decide (x.1 = k) with
    | false =>
      unfold findRow at h ⊢
      rw [List.find?_cons_of_neg _ (by simp [hx])] at h
      rw [List.cons_append, List.find?_cons_of_neg _ (by simp [hx])]
      exact ih h
    | true =>
      unfold findRow at h ⊢
      rw [@List.find?_cons_of_pos _ (fun r => decide (r.1 = k)) x xt hx] at h
      rw [List.cons_append,
        @List.find?_cons_of_pos _ (fun r => decide (r.1 = k)) x (xt ++ r2) hx]
      exact h

theorem findRow_append_none {r1 r2 : List (Key × List (Option ℚ))} {k : Key}
    (h : findRow r1 k = none) :
    findRow (r1 ++ r2) k = findRow r2 k := by
  induction r1 with
  | nil => rfl
  | cons x xt ih =>
    cases hx : decide (x.1 = k) with
    | false =>
      unfold findRow at h ⊢
      rw [List.find?_cons_of_neg _ (by simp [hx])] at h
      rw [List.cons_append, List.find?_cons_of_neg _ (by simp [hx])]
      exact ih h
    | true =>
      unfold findRow at h
      rw [@List.find?_cons_of_pos _ (fun r => decide (r.1 = k)) x xt hx] at h
      cases h

theorem findRow_not_hasKey {M : MTable} {k : Key} (h : M.hasKey k = false) :
    findRow M.rows k = none := by
  rw [findRow_eq_none]
  intro r hr he
  have : M.hasKey k = true := by
    unfold MTable.hasKey
    rw [List.any_eq_true]
    exact ⟨r, hr, by simp [he]⟩
  rw [this] at h; cases h

theorem hasKey_of_findRow {M : MTable} {k : Key} {r : Key × List (Option ℚ)}
    (h : findRow M.rows k = some r) : M.hasKey k = true := by
  obtain ⟨h1, h2⟩ := findRow_eq_some h
  unfold MTable.hasKey
  rw [List.any_eq_true]
  exact ⟨r, h2, by simp [h1]⟩

theorem findRow_of_hasKey {M : MTable} {k : Key} (h : M.hasKey k = true) :
    ∃ r, findRow M.rows k = some r := by
  rcases hf : findRow M.rows k with _ | r
  · rw [findRow_eq_none] at hf
    unfold MTable.hasKey at h
    rw [List.any_eq_true] at h
    obtain ⟨r, hr, hd⟩ := h
    exact absurd (of_decide_eq_true hd) (hf r hr)
  · exact ⟨r, rfl⟩

theorem ITable.find?_eq_none_iff {t : ITable} {k : Key} :
    t.rows.find? (fun r => decide (r.1 = k)) = none ↔ t.hasKey k = false := by
  rw [List.find?_eq_none]
  constructor
  · intro h
    rw [Bool.eq_false_iff]
    intro hk
    unfold ITable.hasKey at hk
    rw [List.any_eq_true] at hk
    obtain ⟨r, hr, hd⟩ := hk
    exact h r hr hd
  · intro h r hr hd
    have : t.hasKey k = true := by
      unfold ITable.hasKey
      rw [List.any_eq_true]
      exact ⟨r, hr, hd⟩
    rw [this] at h; cases h

/-- `find?` by key commutes with mapping a key-preserving row transform. -/
theorem find?_map_fst {α β : Type} (f : Key × α → Key × β)
    (hf : ∀ r, (f r).1 = r.1) (l : List (Key × α)) (k : Key) :
    (l.map f).find? (fun r => decide (r.1 = k)) =
      (l.find? (fun r => decide (r.1 = k))).map f := by
  induction l with
  | nil => rfl
  | cons x xt ih =>
    cases hx : decide (x.1 = k) with
    | false =>
      have hfx : decide ((f x).1 = k) = false := by rw [hf x]; exact hx
      rw [List.map_cons,
        @List.find?_cons_of_neg _ (fun r => decide (r.1 = k)) (f x) _ (by simp [hfx]),
        @List.find?_cons_of_neg _ (fun r => decide (r.1 = k)) x _ (by simp [hx]), ih]
    | true =>
      have hfx : decide ((f x).1 = k) = true := by rw [hf x]; exact hx
      rw [List.map_cons,
        @List.find?_cons_of_pos _ (fun r => decide (r.1 = k)) (f x) _ hfx,
        @List.find?_cons_of_pos _ (fun r => decide (r.1 = k)) x _ hx,
        Option.map_some']

/-- `find?` by key through the right-only filter of the outer join. -/
theorem find?_filter_hasKey (M : MTable) (rows : List (Key × ℚ)) (k : Key) :
    (rows.filter (fun r => !(M.hasKey r.1))).find? (fun r => decide (r.1 = k)) =
      if M.hasKey k = false then rows.find? (fun r => decide (r.1 = k)) else none := by
  induction rows with
  | nil => cases hM : M.hasKey k <;> simp [hM]
  | cons x xt ih =>
    by_cases hx : x.1 = k
    · cases hM : M.hasKey k with
      | false =>
        have hkeep : ((fun r : Key × ℚ => !(M.hasKey r.1)) x) = true := by
          simp only [hx, hM]; rfl
        rw [@List.filter_cons_of_pos _ (fun r => !(M.hasKey r.1)) x xt hkeep,
          @List.find?_cons_of_pos _ (fun r => decide (r.1 = k)) x _ (by simp [hx]),
          if_pos rfl,
          @List.find?_cons_of_pos _ (fun r => decide (r.1 = k)) x _ (by simp [hx])]
      | true =>
        have hdrop : ¬ (((fun r : Key × ℚ => !(M.hasKey r.1)) x) = true) := by
          simp only [hx, hM]; simp
        rw [@List.filter_cons_of_neg _ (fun r => !(M.hasKey r.1)) x xt hdrop, ih]
        simp [hM]
    · cases hkeep : (!(M.hasKey x.1)) with
      | true =>
        rw [@List.filter_cons_of_pos _ (fun r => !(M.hasKey r.1)) x xt hkeep,
          @List.find?_cons_of_neg _ (fun r => decide (r.1 = k)) x _ (by simp [hx]), ih]
        cases hM : M.hasKey k with
        | false =>
          rw [if_pos rfl, if_pos rfl,
            @List.find?_cons_of_neg _ (fun r => decide (r.1 = k)) x _ (by simp [hx])]
        | true => rw [if_neg (by simp), if_neg (by simp)]
      | false =>
        rw [@List.filter_cons_of_neg _ (fun r => !(M.hasKey r.1)) x xt
          (by simp [hkeep]), ih]
        cases hM : M.hasKey k with
        | false =>
          rw [if_pos rfl, if_pos rfl,
            @List.find?_cons_of_neg _ (fun r => decide (r.1 = k)) x _ (by simp [hx])]
        | true => rw [if_neg (by simp), if_neg (by simp)]

/-! #### Shape of an outer join step -/

theorem joinOuter_rows_fst (M : MTable) (t : ITable) :
    (joinOuter M t).rows.map Prod.fst =
      M.rows.map Prod.fst ++ t.keys.filter (fun k => !(M.hasKey k)) := by
  unfold joinOuter ITable.keys
  rw [List.map_append, List.map_map, List.map_map, List.filter_map]
  rfl

theorem joinOuter_hasKey_iff {M : MTable} {t : ITable} {k : Key} :
    (joinOuter M t).hasKey k = true ↔ (M.hasKey k = true ∨ t.hasKey k = true) := by
  rw [MTable.hasKey_iff_mem_rows, joinOuter_rows_fst, List.mem_append, List.mem_filter]
  constructor
  · rintro (h | ⟨h, _⟩)
    · exact Or.inl (MTable.hasKey_iff_mem_rows.mpr h)
    · exact Or.inr (ITable.hasKey_iff_mem_keys.mpr h)
  · rintro (h | h)
    · exact Or.inl (MTable.hasKey_iff_mem_rows.mp h)
    · cases hM : M.hasKey k with
      | true => exact Or.inl (MTable.hasKey_iff_mem_rows.mp hM)
      | false => exact Or.inr ⟨ITable.hasKey_iff_mem_keys.mp h, by simp [hM]⟩

theorem joinOuter_nodup {M : MTable} {t : ITable}
    (hM : (M.rows.map Prod.fst).Nodup) (ht : t.keys.Nodup) :
    ((joinOuter M t).rows.map Prod.fst).Nodup := by
  rw [joinOuter_rows_fst, List.nodup_append]
  refine ⟨hM, ht.filter _, ?_⟩
  intro k hk1 hk2
  have h1 : M.hasKey k = true := MTable.hasKey_iff_mem_rows.mpr hk1
  have h2 := List.of_mem_filter hk2
  rw [h1] at h2
  cases h2

theorem joinOuter_widths {M : MTable} {t : ITable}
    (hw : ∀ r ∈ M.rows, r.2.length = M.cols.length) :
    ∀ r ∈ (joinOuter M t).rows, r.2.length = (joinOuter M t).cols.length := by
  intro r hr
  unfold joinOuter at hr ⊢
  simp only [List.mem_append, List.mem_map] at hr
  rcases hr with ⟨s, hs, rfl⟩ | ⟨s, _, rfl⟩
  · simp [hw s hs]
  · simp

theorem findRow_joinOuter_left {M : MTable} {t : ITable} {k : Key}
    {r : Key × List (Option ℚ)} (h : findRow M.rows k = some r) :
    findRow (joinOuter M t).rows k = some (r.1, r.2 ++ [t.lookup r.1]) := by
  unfold joinOuter
  apply findRow_append_some
  unfold findRow
  rw [find?_map_fst (fun r => (r.1, r.2 ++ [t.lookup r.1])) (fun _ => rfl) M.rows k]
  unfold findRow at h
  rw [h, Option.map_some']

theorem findRow_joinOuter_right {M : MTable} {t : ITable} {k : Key}
    (hM : M.hasKey k = false) :
    findRow (joinOuter M t).rows k =
      (t.rows.find? (fun r => decide (r.1 = k))).map
        (fun r => (r.1, List.replicate M.cols.length none ++ [some r.2])) := by
  unfold joinOuter
  rw [findRow_append_none]
  · unfold findRow
    rw [find?_map_fst
        (fun r : Key × ℚ => (r.1, List.replicate M.cols.length none ++ [some r.2]))
        (fun _ => rfl) _ k,
      find?_filter_hasKey M t.rows k, if_pos hM]
  · unfold findRow
    rw [find?_map_fst (fun r => (r.1, r.2 ++ [t.lookup r.1])) (fun _ => rfl) M.rows k]
    have := findRow_not_hasKey (M := M) hM
    unfold findRow at this
    rw [this]
    rfl

/-- Cell of an outer join in a column the left table already has. -/
theorem getCell_joinOuter_old {M : MTable} {t : ITable} {c : String} {i : Nat}
    {k : Key} (hw : ∀ r ∈ M.rows, r.2.length = M.cols.length)
    (hc : colIndex M.cols c = some i) :
    getCell (joinOuter M t) c k =
      if M.hasKey k = true then getCell M c k
      else if t.hasKey k = true then some none else none := by
  have hlt : i < M.cols.length := colIndex_lt_length hc
  have hci : colIndex (joinOuter M t).cols c = some i := colIndex_append_left _ hc
  cases hM : M.hasKey k with
  | true =>
    obtain ⟨r, hr⟩ := findRow_of_hasKey hM
    have hr' := findRow_joinOuter_left (t := t) hr
    have hir : i < r.2.length := by
      rw [hw r (findRow_eq_some hr).2]; exact hlt
    unfold getCell
    rw [hci, hr', hc, hr]
    simp only [Option.some_bind]
    rw [List.getElem?_append, if_pos hir]
    simp
  | false =>
    have hr' := findRow_joinOuter_right (t := t) hM
    unfold getCell
    rw [hci, hr']
    rcases hf : t.rows.find? (fun r => decide (r.1 = k)) with _ | r0
    · rw [hf]
      simp [ITable.find?_eq_none_iff.mp hf]
    · have ht : t.hasKey k = true := by
        cases hts : t.hasKey k with
        | false => rw [ITable.find?_eq_none_iff.mpr hts] at hf; cases hf
        | true => rfl
      rw [hf, ht]
      simp only [Option.map_some', Option.some_bind]
      rw [List.getElem?_append, if_pos (by simpa using hlt), List.getElem?_replicate,
        if_pos hlt]
      simp

/-- Cell of an outer join in the newly joined indicator's column. -/
theorem getCell_joinOuter_new {M : MTable} {t : ITable} {k : Key}
    (hw : ∀ r ∈ M.rows, r.2.length = M.cols.length)
    (hnc : colIndex M.cols t.col = none) :
    getCell (joinOuter M t) t.col k =
      if (M.hasKey k || t.hasKey k) = true then some (t.lookup k) else none := by
  have hci : colIndex (joinOuter M t).cols t.col = some M.cols.length := by
    show colIndex (M.cols ++ [t.col]) t.col = _
    rw [colIndex_append_right _ hnc]
    simp [colIndex]
  cases hM : M.hasKey k with
  | true =>
    obtain ⟨r, hr⟩ := findRow_of_hasKey hM
    have hr' := findRow_joinOuter_left (t := t) hr
    unfold getCell
    rw [hci, hr']
    simp only [Option.some_bind]
    have hlen : r.2.length = M.cols.length := hw r (findRow_eq_some hr).2
    rw [List.getElem?_append, if_neg (by omega)]
    rw [hlen, Nat.sub_self]
    have : (r.1 : Key) = k := (findRow_eq_some hr).1
    rw [this]
    rfl
  | false =>
    have hr' := findRow_joinOuter_right (t := t) hM
    unfold getCell
    rw [hci, hr']
    rcases hf : t.rows.find? (fun r => decide (r.1 = k)) with _ | r0
    · rw [hf]
      simp [ITable.find?_eq_none_iff.mp hf]
    · have ht : t.hasKey k = true := by
        cases hts : t.hasKey k with
        | false => rw [ITable.find?_eq_none_iff.mpr hts] at hf; cases hf
        | true => rfl
      rw [hf, ht]
      simp only [Option.map_some', Option.some_bind]
      rw [List.getElem?_append, if_neg (by simp), List.length_replicate, Nat.sub_self]
      unfold ITable.lookup
      rw [hf, Option.map_some']
      rfl

/-! #### The fold invariant of `_merge_metrics` -/

/-- Invariant carried along the `reduce` of `_merge_metrics` after the
tables in `done` have been joined into the accumulator. -/
structure MergeInv (acc : MTable) (done : List ITable) : Prop where
  cols_eq : acc.cols = done.map ITable.col
  nodup : (acc.rows.map Prod.fst).Nodup
  widths : ∀ r ∈ acc.rows, r.2.length = acc.cols.length
  keys_iff : ∀ k, acc.hasKey k = true ↔ ∃ t ∈ done, t.hasKey k = true
  cells : ∀ t ∈ done, ∀ k, getCell acc t.col k =
    if acc.hasKey k = true then some (t.lookup k) else none

theorem toM_rows_fst (t : ITable) : (toM t).rows.map Prod.fst = t.keys := by
  unfold toM ITable.keys
  rw [List.map_map]
  rfl

theorem toM_hasKey (t : ITable) (k : Key) : (toM t).hasKey k = t.hasKey k := by
  cases h2 : t.hasKey k with
  | true =>
    rw [MTable.hasKey_iff_mem_rows.mpr]
    rw [toM_rows_fst]
    exact ITable.hasKey_iff_mem_keys.mp h2
  | false =>
    rw [Bool.eq_false_iff]
    intro h1
    rw [MTable.hasKey_iff_mem_rows, toM_rows_fst, ← ITable.hasKey_iff_mem_keys, h2] at h1
    cases h1

theorem mergeInv_toM (t : ITable) (ht : t.keys.Nodup) : MergeInv (toM t) [t] := by
  refine ⟨rfl, by rw [toM_rows_fst]; exact ht, ?_, ?_, ?_⟩
  · intro r hr
    unfold toM at hr
    obtain ⟨s, _, rfl⟩ := List.mem_map.mp hr
    rfl
  · intro k
    rw [toM_hasKey]
    constructor
    · intro h; exact ⟨t, by simp, h⟩
    · rintro ⟨u, hu, huk⟩
      have : u = t := by simpa using hu
      exact this ▸ huk
  · intro u hu k
    have hut : u = t := by simpa using hu
    subst hut
    unfold getCell
    have hcol : colIndex (toM u).cols u.col = some 0 := by simp [toM, colIndex]
    rw [hcol]
    have hfr : findRow (toM u).rows k =
        (u.rows.find? (fun r => decide (r.1 = k))).map (fun r => (r.1, [some r.2])) := by
      unfold toM findRow
      rw [find?_map_fst (fun r : Key × ℚ => (r.1, [some r.2])) (fun _ => rfl) _ k]
    rw [hfr, toM_hasKey]
    rcases hf : u.rows.find? (fun r => decide (r.1 = k)) with _ | r0
    · rw [hf, ITable.find?_eq_none_iff.mp hf]
      rfl
    · have ht' : u.hasKey k = true := by
        cases hts : u.hasKey k with
        | false => rw [ITable.find?_eq_none_iff.mpr hts] at hf; cases hf
        | true => rfl
      rw [ht']
      unfold ITable.lookup
      rw [hf, Option.map_some']
      rfl

theorem mergeInv_step {acc : MTable} {done : List ITable}
    (inv : MergeInv acc done) {u : ITable} (hu : u.keys.Nodup)
    (hcol : u.col ∉ done.map ITable.col) : MergeInv (joinOuter acc u) (done ++ [u]) := by
  have hw := inv.widths
  have hnc : colIndex acc.cols u.col = none := by
    rw [colIndex_eq_none, inv.cols_eq]; exact hcol
  refine ⟨?_, joinOuter_nodup inv.nodup hu, joinOuter_widths hw, ?_, ?_⟩
  · show acc.cols ++ [u.col] = (done ++ [u]).map ITable.col
    rw [List.map_append, inv.cols_eq]
    rfl
  · intro k
    rw [joinOuter_hasKey_iff]
    constructor
    · rintro (h | h)
      · obtain ⟨t, ht, htk⟩ := (inv.keys_iff k).mp h
        exact ⟨t, List.mem_append_left _ ht, htk⟩
      · exact ⟨u, List.mem_append_right _ (by simp), h⟩
    · rintro ⟨t, ht, htk⟩
      rcases List.mem_append.mp ht with ht | ht
      · exact Or.inl ((inv.keys_iff k).mpr ⟨t, ht, htk⟩)
      · have : t = u := by simpa using ht
        exact Or.inr (this ▸ htk)
  · intro t ht k
    rcases List.mem_append.mp ht with htd | htu
    · -- a column joined earlier
      obtain ⟨i, hi⟩ : ∃ i, colIndex acc.cols t.col = some i := by
        rcases hopt : colIndex acc.cols t.col with _ | i
        · rw [colIndex_eq_none, inv.cols_eq] at hopt
          exact absurd (List.mem_map_of_mem _ htd) hopt
        · exact ⟨i, rfl⟩
      rw [getCell_joinOuter_old hw hi]
      cases hM : acc.hasKey k with
      | true =>
        rw [if_pos rfl, inv.cells t htd k, if_pos hM,
          if_pos (joinOuter_hasKey_iff.mpr (Or.inl hM))]
      | false =>
        rw [if_neg (by simp)]
        cases hU : u.hasKey k with
        | true =>
          have hT : t.hasKey k = false := by
            cases hT : t.hasKey k with
            | false => rfl
            | true =>
              have : acc.hasKey k = true := (inv.keys_iff k).mpr ⟨t, htd, hT⟩
              rw [hM] at this; cases this
          rw [if_pos rfl, if_pos (joinOuter_hasKey_iff.mpr (Or.inr hU)),
            ITable.lookup_eq_none hT]
        | false =>
          rw [if_neg (by simp)]
          have hjf : (joinOuter acc u).hasKey k = false := by
            cases hj : (joinOuter acc u).hasKey k with
            | false => rfl
            | true =>
              rcases joinOuter_hasKey_iff.mp hj with h | h
              · rw [hM] at h; cases h
              · rw [hU] at h; cases h
          rw [if_neg (by simp [hjf])]
    · -- the newly joined column
      have htu' : t = u := by simpa using htu
      subst htu'
      rw [getCell_joinOuter_new hw hnc]
      cases hO : (acc.hasKey k || t.hasKey k) with
      | true =>
        rw [if_pos rfl, if_pos (joinOuter_hasKey_iff.mpr (by
          rcases Bool.or_eq_true_iff.mp hO with h | h
          · exact Or.inl h
          · exact Or.inr h))]
      | false =>
        rw [if_neg (by simp)]
        obtain ⟨h1, h2⟩ := Bool.or_eq_false_iff.mp hO
        have hjf : (joinOuter acc t).hasKey k = false := by
          cases hj : (joinOuter acc t).hasKey k with
          | false => rfl
          | true =>
            rcases joinOuter_hasKey_iff.mp hj with h | h
            · rw [h1] at h; cases h
            · rw [h2] at h; cases h
        rw [if_neg (by simp [hjf])]

theorem mergeInv_foldl (rest : List ITable) :
    ∀ (acc : MTable) (done : List ITable), MergeInv acc done →
      (∀ t ∈ rest, t.keys.Nodup) →
      ((done ++ rest).map ITable.col).Nodup →
      MergeInv (rest.foldl joinOuter acc) (done ++ rest) := by
  induction rest with
  | nil =>
    intro acc done inv _ _
    simpa using inv
  | cons u us ih =>
    intro acc done inv hk hc
    have hucol : u.col ∉ done.map ITable.col := by
      rw [List.map_append, List.nodup_append] at hc
      exact fun hmem => hc.2.2 hmem (by simp)
    have inv' : MergeInv (joinOuter acc u) (done ++ [u]) :=
      mergeInv_step inv (hk u (by simp)) hucol
    have := ih (joinOuter acc u) (done ++ [u]) inv'
      (fun t htm => hk t (by simp [htm]))
      (by simpa [List.append_assoc] using hc)
    simpa [List.append_assoc] using this

/-- Key lookup is invariant under permuting a table with duplicate-free keys
(the final `sort_values` only reorders rows). -/
theorem findRow_perm {r1 r2 : List (Key × List (Option ℚ))} (hp : r1.Perm r2)
    (hnd : (r1.map Prod.fst).Nodup) (k : Key) : findRow r1 k = findRow r2 k := by
  rcases h1 : findRow r1 k with _ | r
  · rcases h2 : findRow r2 k with _ | s
    · rfl
    · obtain ⟨hs1, hs2⟩ := findRow_eq_some h2
      rw [findRow_eq_none] at h1
      exact absurd hs1 (h1 s (hp.symm.subset hs2))
  · obtain ⟨hr1, hr2⟩ := findRow_eq_some h1
    rcases h2 : findRow r2 k with _ | s
    · rw [findRow_eq_none] at h2
      exact absurd hr1 (h2 r (hp.subset hr2))
    · obtain ⟨hs1, hs2⟩ := findRow_eq_some h2
      have : r = s :=
        List.inj_on_of_nodup_map hnd hr2 (hp.symm.subset hs2) (hr1.trans hs1.symm)
      rw [this]

/-- The invariant established for the whole `_merge_metrics` fold. -/
theorem mergeInv_mergeMetrics {t0 : ITable} {rest : List ITable}
    (hkeys : ∀ t ∈ t0 :: rest, t.keys.Nodup)
    (hcols : ((t0 :: rest).map ITable.col).Nodup) :
    MergeInv (rest.foldl joinOuter (toM t0)) (t0 :: rest) := by
  have hbase : MergeInv (toM t0) [t0] := mergeInv_toM t0 (hkeys t0 (by simp))
  have := mergeInv_foldl rest (toM t0) [t0] hbase
    (fun t htm => hkeys t (by simp [htm])) (by simpa using hcols)
  simpa using this

theorem mergeMetrics_getCell_eq {t0 : ITable} {rest : List ITable} (c : String)
    (k : Key) (hnd : ((rest.foldl joinOuter (toM t0)).rows.map Prod.fst).Nodup) :
    getCell (mergeMetrics (t0 :: rest)) c k =
      getCell (rest.foldl joinOuter (toM t0)) c k := by
  unfold mergeMetrics getCell
  rw [findRow_perm (List.perm_insertionSort rowLe _)
    (((List.perm_insertionSort rowLe _).map Prod.fst).nodup_iff.mpr hnd) k]

/-- Characterization of a merged cell: in the column of indicator `t`, the
cell at key `k` is present exactly for the keys of the union, and carries
`t`'s own value for `k` (null when `t` has no observation there). -/
theorem getCell_mergeMetrics_col {ts : List ITable} {t : ITable} (ht : t ∈ ts)
    (hkeys : ∀ t' ∈ ts, t'.keys.Nodup)
    (hcols : (ts.map ITable.col).Nodup) (k : Key) :
    getCell (mergeMetrics ts) t.col k =
      if k ∈ unionKeys ts then some (t.lookup k) else none := by
  obtain ⟨t0, rest, rfl⟩ : ∃ t0 rest, ts = t0 :: rest := by
    cases ts with
    | nil => cases ht
    | cons a l => exact ⟨a, l, rfl⟩
  have hinv := mergeInv_mergeMetrics hkeys hcols
  rw [mergeMetrics_getCell_eq t.col k hinv.nodup, hinv.cells t ht k]
  by_cases hk : k ∈ unionKeys (t0 :: rest)
  · rw [if_pos hk, if_pos ((hinv.keys_iff k).mpr (mem_unionKeys.mp hk))]
  · rw [if_neg hk, if_neg (fun hM => hk (mem_unionKeys.mpr ((hinv.keys_iff k).mp hM)))]

theorem foldl_join_cols (rest : List ITable) (acc : MTable) :
    (rest.foldl joinOuter acc).cols = acc.cols ++ rest.map ITable.col := by
  induction rest generalizing acc with
  | nil => simp
  | cons u us ih =>
    rw [List.foldl_cons, ih]
    show (acc.cols ++ [u.col]) ++ us.map ITable.col = _
    rw [List.append_assoc]
    rfl

/-- A column label no indicator carries is absent from the merged table. -/
theorem getCell_mergeMetrics_nocol {ts : List ITable} {c : String}
    (hc : ∀ t ∈ ts, t.col ≠ c) (k : Key) : getCell (mergeMetrics ts) c k = none := by
  cases ts with
  | nil => rfl
  | cons t0 rest =>
    have hcols : colIndex (mergeMetrics (t0 :: rest)).cols c = none := by
      rw [colIndex_eq_none]
      show c ∉ (rest.foldl joinOuter (toM t0)).cols
      rw [foldl_join_cols]
      intro hmem
      rcases List.mem_append.mp hmem with h | h
      · have he : c = t0.col := by simpa [toM] using h
        exact hc t0 (by simp) he.symm
      · obtain ⟨u, hu, he⟩ := List.mem_map.mp h
        exact hc u (by simp [hu]) he
    unfold getCell
    rw [hcols]
    rfl

theorem mergeMetrics_length {ts : List ITable} (hne : ts ≠ [])
    (hkeys : ∀ t ∈ ts, t.keys.Nodup) (hcols : (ts.map ITable.col).Nodup) :
    (mergeMetrics ts).rows.length = (unionKeys ts).card := by
  obtain ⟨t0, rest, rfl⟩ : ∃ t0 rest, ts = t0 :: rest := by
    cases ts with
    | nil => exact absurd rfl hne
    | cons a l => exact ⟨a, l, rfl⟩
  have hinv := mergeInv_mergeMetrics hkeys hcols
  have hlen : (mergeMetrics (t0 :: rest)).rows.length =
      (rest.foldl joinOuter (toM t0)).rows.length :=
    (List.perm_insertionSort rowLe _).length_eq
  have hset : ((rest.foldl joinOuter (toM t0)).rows.map Prod.fst).toFinset =
      unionKeys (t0 :: rest) := by
    ext k
    rw [List.mem_toFinset, ← MTable.hasKey_iff_mem_rows, hinv.keys_iff, mem_unionKeys]
  rw [hlen, ← List.length_map _ Prod.fst, ← List.toFinset_card_of_nodup hinv.nodup,
    hset]

/-- C1: the merged table has exactly one row per identity triple of the
union of the inputs (count = union size), and a triple served by exactly one
indicator has a null cell in every other indicator's column. -/
theorem claim_merge_row_union (ts : List ITable) (hne : ts ≠ [])
    (hkeys : ∀ t ∈ ts, t.keys.Nodup) (hcols : (ts.map ITable.col).Nodup) :
    (mergeMetrics ts).rows.length = (unionKeys ts).card ∧
    (∀ t ∈ ts, ∀ k, t.hasKey k = true →
      (∀ u ∈ ts, u.hasKey k = true → u = t) →
      ∀ u ∈ ts, u ≠ t → getCell (mergeMetrics ts) u.col k = some none) := by
  refine ⟨mergeMetrics_length hne hkeys hcols, ?_⟩
  intro t ht k htk honly u hu hut
  rw [getCell_mergeMetrics_col hu hkeys hcols k,
    if_pos (mem_unionKeys.mpr ⟨t, ht, htk⟩)]
  have huk : u.hasKey k = false := by
    cases h : u.hasKey k with
    | false => rfl
    | true => exact absurd (honly u hu h) hut
  rw [ITable.lookup_eq_none huk]

/-- Indicator table A of the spec's end-to-end example. -/
def tExA : ITable := ⟨"a", [(⟨"DE", "Germany", 2018⟩, 100), (⟨"DE", "Germany", 2019⟩, 110)]⟩

/-- Indicator table B of the spec's end-to-end example. -/
def tExB : ITable := ⟨"b", [(⟨"DE", "Germany", 2018⟩, 5)]⟩

/-- C1 witness: for the spec's two-indicator example the merged table has
`|{(DE,2018),(DE,2019)}| = 2` rows, and the `b` column of `(DE, 2019)` —
a triple only indicator `a` serves — is null. -/
theorem claim_merge_row_union_witness :
    ((mergeMetrics [tExA, tExB]).rows.length = (unionKeys [tExA, tExB]).card ∧
      (∀ t ∈ [tExA, tExB], ∀ k, t.hasKey k = true →
        (∀ u ∈ [tExA, tExB], u.hasKey k = true → u = t) →
        ∀ u ∈ [tExA, tExB], u ≠ t →
          getCell (mergeMetrics [tExA, tExB]) u.col k = some none)) ∧
    getCell (mergeMetrics [tExA, tExB]) "b" ⟨"DE", "Germany", 2019⟩ = some none := by
  have h := claim_merge_row_union [tExA, tExB] (List.cons_ne_nil _ _)
    (by decide) (by decide)
  refine ⟨h, ?_⟩
  have := h.2 tExA (by decide) ⟨"DE", "Germany", 2019⟩ (by decide)
    (by decide) tExB (by decide) (by decide)
  exact this

/-- C4: folding the outer joins over any permutation of the indicator
tables yields a row-content-equivalent merged table — every cell agrees for
every indicator column and identity triple (only column order differs). -/
theorem claim_merge_order_independent (ts ts' : List ITable)
    (hperm : ts.Perm ts') (hkeys : ∀ t ∈ ts, t.keys.Nodup)
    (hcols : (ts.map ITable.col).Nodup) :
    ∀ c k, getCell (mergeMetrics ts) c k = getCell (mergeMetrics ts') c k := by
  intro c k
  have hkeys' : ∀ t ∈ ts', t.keys.Nodup := fun t htm => hkeys t (hperm.symm.subset htm)
  have hcols' : (ts'.map ITable.col).Nodup := ((hperm.map ITable.col).nodup_iff).mp hcols
  by_cases hc : ∃ t ∈ ts, t.col = c
  · obtain ⟨t, ht, rfl⟩ := hc
    rw [getCell_mergeMetrics_col ht hkeys hcols k,
      getCell_mergeMetrics_col (hperm.subset ht) hkeys' hcols' k]
    have hiff : k ∈ unionKeys ts ↔ k ∈ unionKeys ts' := by
      rw [mem_unionKeys, mem_unionKeys]
      constructor
      · rintro ⟨u, hu, huk⟩; exact ⟨u, hperm.subset hu, huk⟩
      · rintro ⟨u, hu, huk⟩; exact ⟨u, hperm.symm.subset hu, huk⟩
    by_cases hk : k ∈ unionKeys ts
    · rw [if_pos hk, if_pos (hiff.mp hk)]
    · rw [if_neg hk, if_neg (fun h => hk (hiff.mpr h))]
  · push_neg at hc
    rw [getCell_mergeMetrics_nocol hc k,
      getCell_mergeMetrics_nocol (fun t htm => hc t (hperm.symm.subset htm)) k]

/-- C4 witness: merging the example tables in either order gives the same
cell for the `b` column of `(DE, Germany, 2018)`. -/
theorem claim_merge_order_independent_witness :
    getCell (mergeMetrics [tExA, tExB]) "b" ⟨"DE", "Germany", 2018⟩ =
      getCell (mergeMetrics [tExB, tExA]) "b" ⟨"DE", "Germany", 2018⟩ :=
  claim_merge_order_independent [tExA, tExB] [tExB, tExA]
    (by decide) (by decide) (by decide) "b" ⟨"DE", "Germany", 2018⟩

/-! ### Reader + Standardizer (C5) -/

/-- A cell value of a raw table: a string (identifiers, labels) or a
number (period values). -/
inductive CellVal
  | str (s : String)
  | num (q : ℚ)
deriving DecidableEq, Repr

/-- A nullable cell (`None`/`NaN` are both modelled as `none`). -/
abbrev Cell := Option CellVal

/-- A raw wide table: header plus rows of cells aligned with the header. -/
structure RTable where
  cols : List String
  rows : List (List Cell)
deriving DecidableEq, Repr

def CODE_COL : String := "country_code"
def NAME_COL : String := "country_name"

/-- One rename application of `df.rename(columns=dict)`: the first mapping
pair whose source matches wins; a label no pair matches is unchanged
(pandas silently ignores mapping keys that are not present). -/
def renameOne (m : List (String × String)) (c : String) : String :=
  match m.find? (fun p => decide (p.1 = c)) with
  | some p => p.2
  | none => c

def renameCols (cols : List String) (m : List (String × String)) : List String :=
  cols.map (renameOne m)

/-- Line 16 of `process_country_metrics.py`: prefer `REF_AREA` (convention
A), else `REF_AREA_ID` (convention B). -/
def chosenCodeCol (cols : List String) : String :=
  if "REF_AREA" ∈ cols then "REF_AREA" else "REF_AREA_ID"

/-- Line 17: prefer `REF_AREA_LABEL` (convention A), else `REF_AREA_NAME`
(convention B). -/
def chosenNameCol (cols : List String) : String :=
  if "REF_AREA_LABEL" ∈ cols then "REF_AREA_LABEL" else "REF_AREA_NAME"

/-- `_standardize` (lines 15–18): rename the chosen identifier columns to
the canonical pair; values untouched. -/
def standardize (t : RTable) : RTable :=
  ⟨renameCols t.cols [(chosenCodeCol t.cols, CODE_COL), (chosenNameCol t.cols, NAME_COL)],
    t.rows⟩

/-- The cell of a row addressed by column name (`none` when absent). -/
def rowGet (cols : List String) (row : List Cell) (c : String) : Cell :=
  match colIndex cols c with
  | some i => (row.get? i).getD none
  | none => none

/-- `df[wanted]` column selection: raises `KeyError` when a label is
missing, modelled by `none`. -/
def selectCols (t : RTable) (wanted : List String) : Option RTable :=
  if wanted.all (fun c => decide (c ∈ t.cols)) then
    some ⟨wanted, t.rows.map (fun row => wanted.map (rowGet t.cols row))⟩
  else none

/-- Annual period column labels: `re.fullmatch(r'\d{4}', str(c))`. -/
def isYearCol (c : String) : Bool :=
  decide (c.data.length = 4) && c.data.all Char.isDigit

/-- The Reader+Standardizer front of an annual `_prepare_*` pipeline:
standardize, compute the period columns from the standardized header, then
select `[CODE_COL, NAME_COL] + value_cols` (lines 36–38). -/
def readStandardizeSelect (t : RTable) : Option RTable :=
  let t1 := standardize t
  let vcols := t1.cols.filter isYearCol
  selectCols t1 ([CODE_COL, NAME_COL] ++ vcols)

theorem renameOne_pair (cc nc c : String) :
    renameOne [(cc, CODE_COL), (nc, NAME_COL)] c =
      if cc = c then CODE_COL else if nc = c then NAME_COL else c := by
  unfold renameOne
  by_cases h1 : cc = c
  · rw [if_pos h1,
      @List.find?_cons_of_pos _ (fun p => decide (p.1 = c)) (cc, CODE_COL) _
        (by simp [h1])]
  · rw [if_neg h1,
      @List.find?_cons_of_neg _ (fun p => decide (p.1 = c)) (cc, CODE_COL) _
        (by simp [h1])]
    by_cases h2 : nc = c
    · rw [if_pos h2,
        @List.find?_cons_of_pos _ (fun p => decide (p.1 = c)) (nc, NAME_COL) _
          (by simp [h2])]
    · rw [if_neg h2,
        @List.find?_cons_of_neg _ (fun p => decide (p.1 = c)) (nc, NAME_COL) _
          (by simp [h2]), List.find?_nil]

theorem code_col_mem_standardize_iff {t : RTable}
    (hcc : CODE_COL ∉ t.cols) :
    CODE_COL ∈ (standardize t).cols ↔ chosenCodeCol t.cols ∈ t.cols := by
  constructor
  · intro h
    obtain ⟨c, hc, he⟩ := List.mem_map.mp h
    rw [renameOne_pair] at he
    by_cases h1 : chosenCodeCol t.cols = c
    · exact h1 ▸ hc
    · rw [if_neg h1] at he
      by_cases h2 : chosenNameCol t.cols = c
      · rw [if_pos h2] at he
        exact absurd he (by decide)
      · rw [if_neg h2] at he
        exact absurd (he ▸ hc) hcc
  · intro h
    refine List.mem_map.mpr ⟨chosenCodeCol t.cols, h, ?_⟩
    rw [renameOne_pair, if_pos rfl]

theorem chosen_cols_ne (cols : List String) :
    chosenCodeCol cols ≠ chosenNameCol cols := by
  unfold chosenCodeCol chosenNameCol
  by_cases h1 : "REF_AREA" ∈ cols <;> by_cases h2 : "REF_AREA_LABEL" ∈ cols <;>
    simp [h1, h2]

theorem name_col_mem_standardize_iff {t : RTable}
    (hcn : NAME_COL ∉ t.cols) :
    NAME_COL ∈ (standardize t).cols ↔ chosenNameCol t.cols ∈ t.cols := by
  constructor
  · intro h
    obtain ⟨c, hc, he⟩ := List.mem_map.mp h
    rw [renameOne_pair] at he
    by_cases h1 : chosenCodeCol t.cols = c
    · rw [if_pos h1] at he
      exact absurd he (by decide)
    · rw [if_neg h1] at he
      by_cases h2 : chosenNameCol t.cols = c
      · exact h2 ▸ hc
      · rw [if_neg h2] at he
        exact absurd (he ▸ hc) hcn
  · intro h
    refine List.mem_map.mpr ⟨chosenNameCol t.cols, h, ?_⟩
    rw [renameOne_pair, if_neg (chosen_cols_ne t.cols), if_pos rfl]

/-- C5 amended: for a table that does not already carry the canonical
identifier pair, the Reader+Standardizer fails (the `KeyError` of the column
selection propagates) when either identifier has neither of its two naming
conventions present; convention A is preferred over convention B per
column, and either convention present per column makes the canonical pair
appear. -/
theorem claim_standardize_conventions (t : RTable)
    (hcc : CODE_COL ∉ t.cols) (hcn : NAME_COL ∉ t.cols) :
    (((¬ "REF_AREA" ∈ t.cols ∧ ¬ "REF_AREA_ID" ∈ t.cols) ∨
      (¬ "REF_AREA_LABEL" ∈ t.cols ∧ ¬ "REF_AREA_NAME" ∈ t.cols)) →
      readStandardizeSelect t = none) ∧
    ("REF_AREA" ∈ t.cols → chosenCodeCol t.cols = "REF_AREA") ∧
    ("REF_AREA_LABEL" ∈ t.cols → chosenNameCol t.cols = "REF_AREA_LABEL") ∧
    (("REF_AREA" ∈ t.cols ∨ "REF_AREA_ID" ∈ t.cols) →
      CODE_COL ∈ (standardize t).cols) ∧
    (("REF_AREA_LABEL" ∈ t.cols ∨ "REF_AREA_NAME" ∈ t.cols) →
      NAME_COL ∈ (standardize t).cols) := by
  refine ⟨?_, ?_, ?_, ?_, ?_⟩
  · rintro (⟨hA, hB⟩ | ⟨hA, hB⟩)
    · have hmiss : CODE_COL ∉ (standardize t).cols := by
        rw [code_col_mem_standardize_iff hcc]
        unfold chosenCodeCol
        rw [if_neg hA]
        exact hB
      unfold readStandardizeSelect selectCols
      rw [if_neg]
      intro hall
      rw [List.all_eq_true] at hall
      exact hmiss (by simpa using hall CODE_COL (by simp))
    · have hmiss : NAME_COL ∉ (standardize t).cols := by
        rw [name_col_mem_standardize_iff hcn]
        unfold chosenNameCol
        rw [if_neg hA]
        exact hB
      unfold readStandardizeSelect selectCols
      rw [if_neg]
      intro hall
      rw [List.all_eq_true] at hall
      exact hmiss (by simpa using hall NAME_COL (by simp))
  · intro h; unfold chosenCodeCol; rw [if_pos h]
  · intro h; unfold chosenNameCol; rw [if_pos h]
  · intro h
    rw [code_col_mem_standardize_iff hcc]
    unfold chosenCodeCol
    rcases h with h | h
    · rwa [if_pos h]
    · by_cases hA : "REF_AREA" ∈ t.cols
      · rwa [if_pos hA]
      · rwa [if_neg hA]
  · intro h
    rw [name_col_mem_standardize_iff hcn]
    unfold chosenNameCol
    rcases h with h | h
    · rwa [if_pos h]
    · by_cases hA : "REF_AREA_LABEL" ∈ t.cols
      · rwa [if_pos hA]
      · rwa [if_neg hA]

/-- A table that already carries the canonical identifier pair: no naming
convention is present, yet the pipeline front does **not** fail — pandas
`rename` silently ignores the absent source labels. -/
def canonicalExample : RTable :=
  ⟨["country_code", "country_name", "2016"],
    [[some (.str "DEU"), some (.str "Germany"), some (.num 1)]]⟩

/-- C5 counterexample: neither convention's identifier column is present,
yet the Reader+Standardizer succeeds (the claim's failure guarantee needs
the canonical columns to be absent). -/
theorem claim_standardize_counterexample :
    (¬ "REF_AREA" ∈ canonicalExample.cols ∧ ¬ "REF_AREA_ID" ∈ canonicalExample.cols) ∧
    (¬ "REF_AREA_LABEL" ∈ canonicalExample.cols ∧
      ¬ "REF_AREA_NAME" ∈ canonicalExample.cols) ∧
    readStandardizeSelect canonicalExample ≠ none := by decide

/-- A WIDEF-style table carrying both conventions for the code column. -/
def widefExample : RTable :=
  ⟨["REF_AREA", "REF_AREA_ID", "REF_AREA_LABEL", "2016"],
    [[some (.str "DEU"), some (.str "276"), some (.str "Germany"), some (.num 1)]]⟩

/-- C5 witness: the amended claim at a concrete WIDEF-style header. -/
theorem claim_standardize_conventions_witness :
    (((¬ "REF_AREA" ∈ widefExample.cols ∧ ¬ "REF_AREA_ID" ∈ widefExample.cols) ∨
      (¬ "REF_AREA_LABEL" ∈ widefExample.cols ∧
        ¬ "REF_AREA_NAME" ∈ widefExample.cols)) →
      readStandardizeSelect widefExample = none) ∧
    ("REF_AREA" ∈ widefExample.cols → chosenCodeCol widefExample.cols = "REF_AREA") ∧
    ("REF_AREA_LABEL" ∈ widefExample.cols →
      chosenNameCol widefExample.cols = "REF_AREA_LABEL") ∧
    (("REF_AREA" ∈ widefExample.cols ∨ "REF_AREA_ID" ∈ widefExample.cols) →
      CODE_COL ∈ (standardize widefExample).cols) ∧
    (("REF_AREA_LABEL" ∈ widefExample.cols ∨ "REF_AREA_NAME" ∈ widefExample.cols) →
      NAME_COL ∈ (standardize widefExample).cols) :=
  claim_standardize_conventions widefExample (by decide) (by decide)

/-! ### Validators (`src/utils/validators.py`) -/

deriving instance DecidableEq for Except

/-- A table as the range checks see it: named columns of nullable numeric
values. -/
abbrev VTable := List (String × List (Option ℚ))

def lookupCol (t : VTable) (c : String) : Option (List (Option ℚ)) :=
  (t.find? (fun p => decide (p.1 = c))).map Prod.snd

/-- The payload of the `ValueError` raised by a range check: the offending
column and the offending row indices. -/
structure ValErr where
  column : String
  rows : List Nat
deriving DecidableEq, Repr

/-- Positions (from `start`) of the non-null out-of-range values of one
column — `invalid.index.tolist()`. -/
def badIndicesFrom (p : ℚ → Bool) : Nat → List (Option ℚ) → List Nat
  | _, [] => []
  | i, none :: rest => badIndicesFrom p (i + 1) rest
  | i, some v :: rest =>
    if p v then badIndicesFrom p (i + 1) rest else i :: badIndicesFrom p (i + 1) rest

def badIndices (vals : List (Option ℚ)) (p : ℚ → Bool) : List Nat :=
  badIndicesFrom p 0 vals

/-- One column check of `validate_data_ranges`: an absent column is
skipped, only non-null values are checked, a violation raises with the
column name and offending row indices. -/
def checkColumn (t : VTable) (c : String) (p : ℚ → Bool) : Except ValErr Unit :=
  match lookupCol t c with
  | none => .ok ()
  | some vals =>
    if (badIndices vals p).isEmpty then .ok () else .error ⟨c, badIndices vals p⟩

/-- The checks in sequence; the first violation raises. -/
def runChecks : List (String × (ℚ → Bool)) → VTable → Except ValErr Unit
  | [], _ => .ok ()
  | (c, p) :: rest, t =>
    match checkColumn t c p with
    | .error e => .error e
    | .ok () => runChecks rest t

/-- `df[column].between(lower, upper)` — inclusive bounds. -/
def between (lo hi : ℚ) : ℚ → Bool := fun v => decide (lo ≤ v) && decide (v ≤ hi)

/-- valid iff not `df[column] < 0`. -/
def nonneg : ℚ → Bool := fun v => decide (0 ≤ v)

/-- The checks of `validate_data_ranges` in source order: the
`bounded_columns` dict, the `positive_columns` set (in its listed order —
Python set iteration order is unspecified, which only permutes which of
several simultaneous violations raises first), then latitude/longitude. -/
def rangeChecks : List (String × (ℚ → Bool)) :=
  [("happiness_index", between 0 100),
   ("health_index", between 0 100),
   ("traffic_congestion_score", between 0 100),
   ("education_level_score", between 0 100),
   ("cultural_events_per_capita", between 0 100),
   ("sports_facilities_per_capita", between 0 100),
   ("forest_proximity_score", between 0 100),
   ("green_space_ratio", between 0 100),
   ("humidity", between 0 100),
   ("cost_of_living_index", between 0 100),
   ("housing_price_index", between 0 100),
   ("air_quality_index", between 0 500),
   ("digital_economy_score", between 0 100),
   ("higher_education_score", between 0 100),
   ("life_satisfaction_score", between 0 10),
   ("cultural_resources_index", between 0 100),
   ("forest_area_percent", between 0 100),
   ("population", nonneg),
   ("distance_to_water", nonneg),
   ("distance_to_mountains", nonneg),
   ("distance_to_forest", nonneg),
   ("distance_to_park", nonneg),
   ("wind_speed_avg", nonneg),
   ("average_salary", nonneg),
   ("rent_price_index", nonneg),
   ("employee_income_index", nonneg),
   ("consumer_price_index", nonneg),
   ("rent_expenditure_percent_gdp", nonneg),
   ("house_price_to_income_ratio", nonneg),
   ("sports_expenditure_percent_gdp", nonneg),
   ("road_traffic_mortality_rate", nonneg),
   ("life_expectancy_years", nonneg),
   ("latitude", between (-90) 90),
   ("longitude", between (-180) 180)]

/-- `validate_data_ranges`. -/
def validate_data_ranges (t : VTable) : Except ValErr Unit := runChecks rangeChecks t

/-- The missing-field list of `validate_required_fields`. -/
def requiredMissing (cols required : List String) : List String :=
  required.filter (fun f => !(decide (f ∈ cols)))

/-- `validate_required_fields` over a table's header. -/
def validate_required_fields (t : VTable) (required : List String) :
    Except (List String) Unit :=
  if (requiredMissing (t.map Prod.fst) required).isEmpty then .ok ()
  else .error (requiredMissing (t.map Prod.fst) required)

/-! #### C7 — inclusive bounds, only non-null values checked -/

theorem badIndicesFrom_all_none {p : ℚ → Bool} :
    ∀ {vals : List (Option ℚ)} {n : Nat}, (∀ v ∈ vals, v = none) →
      badIndicesFrom p n vals = []
  | [], _, _ => rfl
  | x :: rest, n, h => by
    have hx : x = none := h x (by simp)
    subst hx
    unfold badIndicesFrom
    exact badIndicesFrom_all_none (fun v hv => h v (by simp [hv]))

theorem mem_badIndicesFrom {p : ℚ → Bool} :
    ∀ {vals : List (Option ℚ)} {n i : Nat}, i ∈ badIndicesFrom p n vals →
      n ≤ i ∧ ∃ v, vals.get? (i - n) = some (some v) ∧ p v = false := by
  intro vals
  induction vals with
  | nil => intro n i h; cases h
  | cons x rest ih =>
    intro n i h
    match x with
    | none =>
      unfold badIndicesFrom at h
      obtain ⟨h1, v, h2, h3⟩ := ih h
      refine ⟨le_trans (Nat.le_succ n) h1, v, ?_, h3⟩
      have he : i - n = (i - (n + 1)) + 1 := by omega
      rw [he]
      simpa using h2
    | some v0 =>
      unfold badIndicesFrom at h
      by_cases hp : p v0
      · rw [if_pos hp] at h
        obtain ⟨h1, v, h2, h3⟩ := ih h
        refine ⟨le_trans (Nat.le_succ n) h1, v, ?_, h3⟩
        have he : i - n = (i - (n + 1)) + 1 := by omega
        rw [he]
        simpa using h2
      · rw [if_neg hp] at h
        rcases List.mem_cons.mp h with rfl | h
        · exact ⟨le_refl _, v0, by rw [Nat.sub_self]; rfl, by simpa using hp⟩
        · obtain ⟨h1, v, h2, h3⟩ := ih h
          refine ⟨le_trans (Nat.le_succ n) h1, v, ?_, h3⟩
          have he : i - n = (i - (n + 1)) + 1 := by omega
          rw [he]
          simpa using h2

theorem checkColumn_error {t : VTable} {c : String} {p : ℚ → Bool} {e : ValErr}
    (h : checkColumn t c p = .error e) :
    e.column = c ∧ e.rows ≠ [] ∧ ∃ vals, lookupCol t c = some vals ∧
      ∀ i ∈ e.rows, ∃ v, vals.get? i = some (some v) ∧ p v = false := by
  unfold checkColumn at h
  cases hl : lookupCol t c with
  | none => rw [hl] at h; cases h
  | some vals =>
    rw [hl] at h
    dsimp only at h
    by_cases hb : (badIndices vals p).isEmpty
    · rw [if_pos hb] at h; cases h
    · rw [if_neg hb] at h
      injection h with h'
      subst h'
      refine ⟨rfl, by simpa [List.isEmpty_iff] using hb, vals, rfl, ?_⟩
      intro i hi
      obtain ⟨_, v, h2, h3⟩ := mem_badIndicesFrom hi
      exact ⟨v, by simpa using h2, h3⟩

theorem checkColumn_all_none {t : VTable} {c : String} {p : ℚ → Bool}
    (h : ∀ q ∈ t, ∀ v ∈ q.2, v = none) : checkColumn t c p = .ok () := by
  unfold checkColumn
  cases hl : lookupCol t c with
  | none => rfl
  | some vals =>
    have hmem : ∀ v ∈ vals, v = none := by
      unfold lookupCol at hl
      obtain ⟨q, hq, rfl⟩ := Option.map_eq_some'.mp hl
      exact h q (List.mem_of_find?_eq_some hq)
    dsimp only
    rw [if_pos]
    unfold badIndices
    rw [badIndicesFrom_all_none hmem]
    rfl

theorem runChecks_error {cs : List (String × (ℚ → Bool))} {t : VTable} {e : ValErr} :
    runChecks cs t = .error e → ∃ c p, (c, p) ∈ cs ∧ checkColumn t c p = .error e := by
  induction cs with
  | nil => intro h; cases h
  | cons cp rest ih =>
    obtain ⟨c, p⟩ := cp
    intro h
    unfold runChecks at h
    cases hc : checkColumn t c p with
    | error e' =>
      rw [hc] at h
      injection h with h'
      exact ⟨c, p, by simp, h' ▸ hc⟩
    | ok u =>
      cases u
      rw [hc] at h
      obtain ⟨c', p', hm, he⟩ := ih h
      exact ⟨c', p', by simp [hm], he⟩

theorem runChecks_all_none {cs : List (String × (ℚ → Bool))} {t : VTable}
    (h : ∀ q ∈ t, ∀ v ∈ q.2, v = none) : runChecks cs t = .ok () := by
  induction cs with
  | nil => rfl
  | cons cp rest ih =>
    obtain ⟨c, p⟩ := cp
    unfold runChecks
    rw [checkColumn_all_none h]
    exact ih

/-- C7: range validation uses inclusive bounds —
`life_satisfaction_score = 11` (bound `[0, 10]`) raises naming the column
and row 0 while `10` passes; `latitude = 95` raises and `-90` passes; an
all-null table always passes (only non-null values are checked); and every
raised error names a checked column and the indices of non-null offending
values. -/
theorem claim_validate_ranges :
    validate_data_ranges [("life_satisfaction_score", [some 11])] =
      .error ⟨"life_satisfaction_score", [0]⟩ ∧
    validate_data_ranges [("life_satisfaction_score", [some 10])] = .ok () ∧
    validate_data_ranges [("latitude", [some 95])] = .error ⟨"latitude", [0]⟩ ∧
    validate_data_ranges [("latitude", [some (-90)])] = .ok () ∧
    (∀ t, (∀ q ∈ t, ∀ v ∈ q.2, v = none) → validate_data_ranges t = .ok ()) ∧
    (∀ t e, validate_data_ranges t = .error e → e.rows ≠ [] ∧
      ∃ vals, lookupCol t e.column = some vals ∧
        ∀ i ∈ e.rows, ∃ v, vals.get? i = some (some v)) := by
  refine ⟨by decide, by decide, by decide, by decide, ?_, ?_⟩
  · intro t h
    exact runChecks_all_none h
  · intro t e h
    obtain ⟨c, p, _, he⟩ := runChecks_error h
    obtain ⟨hcol, hne, vals, hvals, hrows⟩ := checkColumn_error he
    subst hcol
    exact ⟨hne, vals, hvals, fun i hi => (hrows i hi).imp (fun v hv => hv.1)⟩

/-! #### C10 — the validators leave the dataframe untouched -/

/-- A pandas call sequence threaded through the dataframe: each primitive
returns its result together with the frame it leaves behind, so that an
in-place mutation would be visible in the final state. -/
def DfM (α : Type) : Type := VTable → α × VTable

def DfM.pure {α : Type} (a : α) : DfM α := fun t => (a, t)

def DfM.bind {α β : Type} (m : DfM α) (f : α → DfM β) : DfM β :=
  fun t => f (m t).1 (m t).2

/-- `df.columns` — a read. -/
def readColNames : DfM (List String) := fun t => (t.map Prod.fst, t)

/-- `df[c]` together with its `.notna()`/comparison masks — reads. -/
def readCol (c : String) : DfM (Option (List (Option ℚ))) :=
  fun t => (lookupCol t c, t)

/-- `validate_required_fields`, state-threaded. -/
def validate_required_fields_m (required : List String) :
    DfM (Except (List String) Unit) :=
  DfM.bind readColNames (fun cols => DfM.pure (
    if (requiredMissing cols required).isEmpty then .ok ()
    else .error (requiredMissing cols required)))

def checkColumnM (c : String) (p : ℚ → Bool) : DfM (Except ValErr Unit) :=
  DfM.bind (readCol c) (fun vals => DfM.pure (
    match vals with
    | none => .ok ()
    | some vs =>
      if (badIndices vs p).isEmpty then .ok () else .error ⟨c, badIndices vs p⟩))

def runChecksM : List (String × (ℚ → Bool)) → DfM (Except ValErr Unit)
  | [] => DfM.pure (.ok ())
  | (c, p) :: rest =>
    DfM.bind (checkColumnM c p) (fun r =>
      match r with
      | .error e => DfM.pure (.error e)
      | .ok () => runChecksM rest)

/-- `validate_data_ranges`, state-threaded. -/
def validate_data_ranges_m : DfM (Except ValErr Unit) := runChecksM rangeChecks

theorem checkColumnM_eq (c : String) (p : ℚ → Bool) (t : VTable) :
    checkColumnM c p t = (checkColumn t c p, t) := by
  unfold checkColumnM checkColumn DfM.bind DfM.pure readCol
  rfl

theorem runChecksM_eq (cs : List (String × (ℚ → Bool))) (t : VTable) :
    runChecksM cs t = (runChecks cs t, t) := by
  induction cs with
  | nil => rfl
  | cons cp rest ih =>
    obtain ⟨c, p⟩ := cp
    show DfM.bind (checkColumnM c p) _ t = _
    unfold DfM.bind
    rw [checkColumnM_eq]
    cases hc : checkColumn t c p with
    | error e =>
      unfold runChecks
      rw [hc]
      rfl
    | ok u =>
      cases u
      show runChecksM rest t = _
      unfold runChecks
      rw [hc, ih]

/-- C10: both validators are pure reads — threaded through the dataframe
state they return exactly the pure verdict and leave the frame unchanged,
whether they pass or raise. -/
theorem claim_validators_pure :
    (∀ required t, validate_required_fields_m required t =
      (validate_required_fields t required, t)) ∧
    (∀ t, validate_data_ranges_m t = (validate_data_ranges t, t)) := by
  constructor
  · intro required t
    rfl
  · intro t
    exact runChecksM_eq rangeChecks t

/-! ### `CountryDataETL.transform` (C9) -/

def IDENTIFIER_COLUMNS : List String := ["country_code", "country_name", "year"]

def METRIC_COLUMNS : List String :=
  ["employee_income_index", "consumer_price_index", "rent_expenditure_percent_gdp",
   "house_price_to_income_ratio", "real_gdp_growth_rate", "digital_economy_score",
   "higher_education_score", "life_satisfaction_score", "cultural_resources_index",
   "sports_expenditure_percent_gdp", "road_traffic_mortality_rate",
   "forest_area_percent", "life_expectancy_years"]

/-- `metric_columns = [col for col in df.columns if col not in
IDENTIFIER_COLUMNS]` — the `dropna` subset. -/
def metricColsOf (t : RTable) : List String :=
  t.cols.filter (fun c => !(decide (c ∈ IDENTIFIER_COLUMNS)))

/-- `df.dropna(subset=metric_columns, how="all")`. -/
def dropEmptyMetricRows (t : RTable) : RTable :=
  ⟨t.cols, t.rows.filter (fun row =>
    !((metricColsOf t).all (fun c => decide (rowGet t.cols row c = none))))⟩

/-- `CountryMetrics.model_fields` in declaration order. -/
def COUNTRY_METRICS_FIELDS : List String :=
  ["country_name", "iso2", "iso3", "year"] ++ METRIC_COLUMNS

/-- The `ordered_columns` reindex target of `transform`. -/
def orderedColumns : List String :=
  ["country_code", "country_name", "iso2", "iso3", "year"] ++ METRIC_COLUMNS

/-- One record of the `transform` loop: `iso2` defaults to null, `iso3`
falls back to the country code (`payload.get("iso3") or
payload["country_code"]`), metric cells pass through with NaN mapped to
null; the result is laid out in `ordered_columns` order. -/
def buildRecord (cols : List String) (row : List Cell) : List Cell :=
  [rowGet cols row "country_code",
   rowGet cols row "country_name",
   rowGet cols row "iso2",
   (match rowGet cols row "iso3" with
    | some v => some v
    | none => rowGet cols row "country_code"),
   rowGet cols row "year"] ++
  METRIC_COLUMNS.map (fun c => rowGet cols row c)

/-- The per-field bound constraints of the `CountryMetrics` pydantic model. -/
def pydMetricOk : String → ℚ → Bool
  | "employee_income_index", _ => true
  | "consumer_price_index", q => decide (0 ≤ q)
  | "rent_expenditure_percent_gdp", q => decide (0 ≤ q)
  | "house_price_to_income_ratio", q => decide (0 ≤ q)
  | "real_gdp_growth_rate", _ => true
  | "digital_economy_score", q => between 0 100 q
  | "higher_education_score", q => between 0 100 q
  | "life_satisfaction_score", q => between 0 10 q
  | "cultural_resources_index", q => between 0 100 q
  | "sports_expenditure_percent_gdp", q => decide (0 ≤ q)
  | "road_traffic_mortality_rate", q => decide (0 ≤ q)
  | "forest_area_percent", q => between 0 100 q
  | "life_expectancy_years", q => decide (0 ≤ q)
  | _, _ => true

/-- `CountryMetrics.from_record` validation: `country_name` a non-empty
string of at most 120 characters, `iso2`/`iso3` null or strings of exactly
2/3 characters, `year` an integral number in `[1900, 2100]`, every metric
null or a number within its field bounds.  A failing record raises. -/
def pydOk (rec : List Cell) : Bool :=
  (match rowGet orderedColumns rec "country_name" with
   | some (.str s) => decide (1 ≤ s.length) && decide (s.length ≤ 120)
   | _ => false) &&
  (match rowGet orderedColumns rec "iso2" with
   | none => true
   | some (.str s) => decide (s.length = 2)
   | some (.num _) => false) &&
  (match rowGet orderedColumns rec "iso3" with
   | none => true
   | some (.str s) => decide (s.length = 3)
   | some (.num _) => false) &&
  (match rowGet orderedColumns rec "year" with
   | some (.num q) => decide (q.den = 1) && decide (1900 ≤ q) && decide (q ≤ 2100)
   | _ => false) &&
  METRIC_COLUMNS.all (fun c =>
    match rowGet orderedColumns rec c with
    | none => true
    | some (.num q) => pydMetricOk c q
    | some (.str _) => false)

def cellToQ : Cell → Option ℚ
  | some (.num q) => some q
  | _ => none

/-- The transformed frame as `validate_data_ranges` sees it: one numeric
column per label (string cells are identifiers, never inspected by the
range checks). -/
def toVTable (t : RTable) : VTable :=
  t.cols.enum.map (fun ic =>
    (ic.2, t.rows.map (fun row => cellToQ ((row.get? ic.1).getD none))))

inductive TransformError
  | missingFields (missing : List String)
  | modelError
  | rangeError (e : ValErr)
deriving DecidableEq, Repr

/-- `CountryDataETL.transform`: required-field check, drop rows with all
metric cells null, early empty return, per-record model validation,
reindex to `ordered_columns`, then range validation. -/
def transform (t : RTable) : Except TransformError RTable :=
  if (requiredMissing t.cols IDENTIFIER_COLUMNS).isEmpty then
    let t2 := dropEmptyMetricRows t
    if t2.rows.isEmpty then .ok ⟨COUNTRY_METRICS_FIELDS, []⟩
    else
      let recs := t2.rows.map (buildRecord t2.cols)
      if recs.all pydOk then
        match validate_data_ranges (toVTable ⟨orderedColumns, recs⟩) with
        | .error e => .error (.rangeError e)
        | .ok () => .ok ⟨orderedColumns, recs⟩
      else .error .modelError
  else .error (.missingFields (requiredMissing t.cols IDENTIFIER_COLUMNS))

/-! #### C9 — rows with only null metrics are dropped before validation -/

theorem colIndex_map_get {L : List String} {c : String} {i : Nat}
    (f : String → Cell) (h : colIndex L c = some i) :
    (L.map f).get? i = some (f c) := by
  induction L generalizing i with
  | nil => cases h
  | cons x xs ih =>
    simp only [colIndex] at h
    by_cases hx : x = c
    · rw [if_pos hx] at h
      injection h with h'
      subst h'
      rw [hx]
      rfl
    · rw [if_neg hx] at h
      obtain ⟨j, hj, rfl⟩ := Option.map_eq_some'.mp h
      simpa using ih hj

theorem colIndex_isSome_of_mem {L : List String} {c : String} (h : c ∈ L) :
    ∃ i, colIndex L c = some i := by
  rcases ho : colIndex L c with _ | i
  · rw [colIndex_eq_none] at ho
    exact absurd h ho
  · exact ⟨i, rfl⟩

/-- Reading a metric column of a record laid out as `prefix ++ map` hits
the mapped value. -/
theorem rowGet_prefix_map (p : List String) (vp : List Cell) (L : List String)
    (f : String → Cell) (c : String) (hlen : vp.length = p.length)
    (hc : c ∈ L) (hcp : c ∉ p) :
    rowGet (p ++ L) (vp ++ L.map f) c = f c := by
  obtain ⟨j, hj⟩ := colIndex_isSome_of_mem hc
  have hp : colIndex p c = none := colIndex_eq_none.mpr hcp
  unfold rowGet
  rw [colIndex_append_right _ hp, hj, Option.map_some']
  have hget : (vp ++ L.map f).get? (j + p.length) = some (f c) := by
    rw [List.get?_eq_getElem?, List.getElem?_append, if_neg (by omega), hlen]
    have he : j + p.length - p.length = j := by omega
    rw [he, ← List.get?_eq_getElem?]
    exact colIndex_map_get f hj
  dsimp only
  rw [hget]
  rfl

theorem metric_outside_front_cols :
    ∀ c ∈ METRIC_COLUMNS, c ∉ ["country_code", "country_name", "iso2", "iso3", "year"] := by
  decide

/-- Reading a metric column of a built record returns the input cell. -/
theorem rowGet_buildRecord {cols : List String} {row : List Cell} {c : String}
    (hc : c ∈ METRIC_COLUMNS) :
    rowGet orderedColumns (buildRecord cols row) c = rowGet cols row c := by
  unfold buildRecord orderedColumns
  exact rowGet_prefix_map _ _ _ _ c rfl hc (metric_outside_front_cols c hc)

/-- C9 amended: for an input frame whose columns are the identifiers
followed by metric columns (the shape the processing script writes),
`transform` silently drops exactly the rows whose metric cells are all
null: every row of a successful output keeps a non-null metric, and an
input with only all-null-metric rows yields the empty frame, not an
error. -/
theorem claim_transform_drops_all_null (t : RTable) (ms : List String)
    (hcols : t.cols = IDENTIFIER_COLUMNS ++ ms)
    (hms : ∀ c ∈ ms, c ∈ METRIC_COLUMNS) :
    (∀ out, transform t = .ok out → ∀ row ∈ out.rows,
      ∃ c ∈ METRIC_COLUMNS, rowGet out.cols row c ≠ none) ∧
    ((∀ row ∈ t.rows, ∀ c ∈ metricColsOf t, rowGet t.cols row c = none) →
      transform t = .ok ⟨COUNTRY_METRICS_FIELDS, []⟩) := by
  have hreq : (requiredMissing t.cols IDENTIFIER_COLUMNS).isEmpty = true := by
    rw [List.isEmpty_iff]
    unfold requiredMissing
    rw [List.filter_eq_nil_iff]
    intro f hf
    simp only [Bool.not_eq_true', decide_eq_false_iff_not, Decidable.not_not]
    rw [hcols]
    exact List.mem_append_left _ hf
  constructor
  · intro out hout row hrow
    unfold transform at hout
    rw [if_pos hreq] at hout
    by_cases hemp : (dropEmptyMetricRows t).rows.isEmpty
    · rw [if_pos hemp] at hout
      injection hout with h'
      subst h'
      cases hrow
    · rw [if_neg hemp] at hout
      by_cases hpyd : ((dropEmptyMetricRows t).rows.map
          (buildRecord (dropEmptyMetricRows t).cols)).all pydOk
      · rw [if_pos hpyd] at hout
        cases hval : validate_data_ranges (toVTable ⟨orderedColumns,
            (dropEmptyMetricRows t).rows.map
              (buildRecord (dropEmptyMetricRows t).cols)⟩) with
        | error e => rw [hval] at hout; cases hout
        | ok u =>
          cases u
          rw [hval] at hout
          injection hout with h'
          subst h'
          obtain ⟨r0, hr0, rfl⟩ := List.mem_map.mp hrow
          have hr0' := List.mem_filter.mp hr0
          have hex : ∃ c ∈ metricColsOf t, ¬ (rowGet t.cols r0 c = none) := by
            have := hr0'.2
            simp only [Bool.not_eq_true', List.all_eq_false] at this
            obtain ⟨c, hc1, hc2⟩ := this
            exact ⟨c, hc1, by simpa using hc2⟩
          obtain ⟨c, hc1, hc2⟩ := hex
          have hcm : c ∈ METRIC_COLUMNS := by
            unfold metricColsOf at hc1
            have h1 := List.mem_filter.mp hc1
            have h2 : c ∉ IDENTIFIER_COLUMNS := by simpa using h1.2
            have h3 : c ∈ IDENTIFIER_COLUMNS ++ ms := hcols ▸ h1.1
            rcases List.mem_append.mp h3 with h4 | h4
            · exact absurd h4 h2
            · exact hms c h4
          refine ⟨c, hcm, ?_⟩
          show ¬ (rowGet orderedColumns (buildRecord (dropEmptyMetricRows t).cols r0) c = none)
          rw [rowGet_buildRecord hcm]
          exact hc2
      · rw [if_neg hpyd] at hout; cases hout
  · intro hnull
    unfold transform
    rw [if_pos hreq]
    have hemp : (dropEmptyMetricRows t).rows.isEmpty = true := by
      rw [List.isEmpty_iff]
      unfold dropEmptyMetricRows
      rw [List.filter_eq_nil_iff]
      intro row hrow
      have hall : ((metricColsOf t).all
          (fun c => decide (rowGet t.cols row c = none))) = true := by
        rw [List.all_eq_true]
        intro c hc
        simpa using hnull row hrow c hc
      simp [hall]
    rw [if_pos hemp]

/-- A well-formed input with a surviving row: `DEU/Germany/2018` with a
single non-null metric. -/
def metricRowExample : RTable :=
  ⟨IDENTIFIER_COLUMNS ++ ["life_expectancy_years"],
    [[some (.str "DEU"), some (.str "Germany"), some (.num 2018), some (.num 70)]]⟩

/-- C9 amended witness: at the concrete well-formed input. -/
theorem claim_transform_drops_all_null_witness :
    (∀ out, transform metricRowExample = .ok out → ∀ row ∈ out.rows,
      ∃ c ∈ METRIC_COLUMNS, rowGet out.cols row c ≠ none) ∧
    ((∀ row ∈ metricRowExample.rows, ∀ c ∈ metricColsOf metricRowExample,
        rowGet metricRowExample.cols row c = none) →
      transform metricRowExample = .ok ⟨COUNTRY_METRICS_FIELDS, []⟩) :=
  claim_transform_drops_all_null metricRowExample ["life_expectancy_years"]
    rfl (by decide)

/-- An input with an extra non-metric column: its only row has every
metric null but survives `dropna` thanks to the extra cell. -/
def extraColExample : RTable :=
  ⟨["country_code", "country_name", "year", "extra_source_column"],
    [[some (.str "DEU"), some (.str "Germany"), some (.num 2018), some (.num 1)]]⟩

/-- The frame `transform` hands to the sink for it. -/
def extraColOut : RTable :=
  ⟨orderedColumns,
    [[some (.str "DEU"), some (.str "Germany"), none, some (.str "DEU"),
      some (.num 2018)] ++ List.replicate 13 none]⟩

/-- C9 counterexample: `transform` succeeds on this input and the output
row handed to the sink has **every** metric column null — the claim's
"every output row has at least one non-null metric value" fails for inputs
carrying non-metric extra columns. -/
theorem claim_transform_counterexample :
    transform extraColExample = .ok extraColOut ∧
    extraColOut.rows ≠ [] ∧
    (∀ row ∈ extraColOut.rows, ∀ c ∈ METRIC_COLUMNS,
      rowGet extraColOut.cols row c = none) := by decide

end CityGeo
